import Mathlib

/-!
Verification of the type-algebra and HIR-lowering core of the `kirl` semantic
analyzer (`kirl_semantic_analyzer/src/lib.rs`) against its specification.

The Rust code is shallowly embedded: `HIRType` and its operations (`is_a`,
`normalize`, `intersect_to`, `apply_generics_type_argument`, `member_type`),
the surface-type and pattern conversions, the top-level splitter and the
reachability tracker are translated into executable Lean definitions, and the
specification's claims are stated and settled as theorems about them.

`BTreeMap<String, _>` is modelled as a key-sorted association list
(`List (String × _)`): every constructor site inserts in key order, mirroring
the map's sorted iteration; `Vec<_>` is `List _`; `usize` indices are `Nat`.
Rust's derived `PartialEq` and `Ord` on `HIRType` are mirrored by the
executable `beq` and `cmp` below, and `slice::sort` by an insertion sort with
respect to `cmp` (stable, hence extensionally the Rust sort since `cmp`
equality coincides with equality).
-/

namespace Kirl

/-- `HIRType` from the analyzer: the type lattice. -/
inductive HIRType where
  | Infer
  | Unreachable
  | GenericsTypeArgument (i : Nat)
  | Named (path : List String) (generics_arguments : List HIRType)
  | Tuple (items : List HIRType)
  | Array (item : HIRType)
  | Function (arguments : List HIRType) (result : HIRType)
  | AnonymousStruct (members : List (String × HIRType))
  | Or (items : List HIRType)

open HIRType

/-- `BTreeMap::get` on the association-list model. -/
def lookup (k : String) : List (String × HIRType) → Option HIRType
  | [] => none
  | (k', v) :: rest => if k' = k then some v else lookup k rest

theorem lookup_sizeOf {k : String} {m : List (String × HIRType)} {v : HIRType}
    (h : lookup k m = some v) : sizeOf v < sizeOf m := by
  induction m with
  | nil => simp [lookup] at h
  | cons p rest ih =>
    obtain ⟨k', v'⟩ := p
    simp only [lookup] at h
    split at h
    · cases h; simp; omega
    · have := ih h; simp; omega

mutual

/-- `HIRType::is_a` — the subtype relation; clauses in source order, first match wins. -/
def is_a : HIRType → HIRType → Bool
  | .Infer, _ => true
  | _, .Infer => true
  | .Unreachable, _ => true
  | _, .Unreachable => false
  | .GenericsTypeArgument i, .GenericsTypeArgument j => j == i
  | .Named p1 a1, .Named p2 a2 => p1 == p2 && a1.length == a2.length && isAZip a1 a2
  | .Tuple l1, .Tuple l2 => l2.length ≤ l1.length && isAZip l1 l2
  | .Array t1, .Array t2 => is_a t1 t2
  | .Function a1 r1, .Function a2 r2 => a1.length == a2.length && isAZip a2 a1 && is_a r1 r2
  | .AnonymousStruct m1, .AnonymousStruct m2 => isAStruct m1 m2
  | .Or l1, t2 => isAAllLeft l1 t2
  | t1, .Or l2 => isAAnyRight t1 l2
  | _, _ => false
termination_by a b => sizeOf a + sizeOf b

/-- `iter().zip(..).all(|(a, b)| a.is_a(b))` (zip truncates at the shorter list). -/
def isAZip : List HIRType → List HIRType → Bool
  | t1 :: l1, t2 :: l2 => is_a t1 t2 && isAZip l1 l2
  | _, _ => true
termination_by l1 l2 => sizeOf l1 + sizeOf l2

/-- The `AnonymousStruct` clause of `is_a`: every member of the right map has a
supertype-witnessing member of the left map. -/
def isAStruct (m1 : List (String × HIRType)) : List (String × HIRType) → Bool
  | [] => true
  | (k, v2) :: rest =>
    (match h : lookup k m1 with
     | some v1 => is_a v1 v2
     | none => false) && isAStruct m1 rest
termination_by m2 => sizeOf m1 + sizeOf m2
decreasing_by
  all_goals ((try have := lookup_sizeOf h); (try simp); (try omega))

/-- The `Or`-on-the-left clause: all components are subtypes of the target. -/
def isAAllLeft : List HIRType → HIRType → Bool
  | [], _ => true
  | t :: ts, u => is_a t u && isAAllLeft ts u
termination_by l u => sizeOf l + sizeOf u

/-- The `Or`-on-the-right clause: some component is a supertype of the source. -/
def isAAnyRight : HIRType → List HIRType → Bool
  | _, [] => false
  | t, u :: us => is_a t u || isAAnyRight t us
termination_by t l => sizeOf t + sizeOf l

end

mutual

/-- Rust's derived `PartialEq` on `HIRType` (structural equality). -/
def beq : HIRType → HIRType → Bool
  | .Infer, .Infer => true
  | .Unreachable, .Unreachable => true
  | .GenericsTypeArgument i, .GenericsTypeArgument j => i == j
  | .Named p1 g1, .Named p2 g2 => p1 == p2 && beqL g1 g2
  | .Tuple l1, .Tuple l2 => beqL l1 l2
  | .Array t1, .Array t2 => beq t1 t2
  | .Function a1 r1, .Function a2 r2 => beqL a1 a2 && beq r1 r2
  | .AnonymousStruct m1, .AnonymousStruct m2 => beqM m1 m2
  | .Or l1, .Or l2 => beqL l1 l2
  | _, _ => false
termination_by a b => sizeOf a + sizeOf b

def beqL : List HIRType → List HIRType → Bool
  | [], [] => true
  | t1 :: l1, t2 :: l2 => beq t1 t2 && beqL l1 l2
  | _, _ => false
termination_by l1 l2 => sizeOf l1 + sizeOf l2

def beqM : List (String × HIRType) → List (String × HIRType) → Bool
  | [], [] => true
  | (k1, v1) :: l1, (k2, v2) :: l2 => k1 == k2 && beq v1 v2 && beqM l1 l2
  | _, _ => false
termination_by l1 l2 => sizeOf l1 + sizeOf l2

end

/-- Discriminant order of the `HIRType` variants, as in the Rust declaration
(derived `Ord` compares discriminants first). -/
def tag : HIRType → Nat
  | .Infer => 0
  | .Unreachable => 1
  | .GenericsTypeArgument _ => 2
  | .Named _ _ => 3
  | .Tuple _ => 4
  | .Array _ => 5
  | .Function _ _ => 6
  | .AnonymousStruct _ => 7
  | .Or _ => 8

def cmpNat (a b : Nat) : Ordering :=
  if a < b then .lt else if b < a then .gt else .eq

def cmpString (a b : String) : Ordering :=
  if a < b then .lt else if b < a then .gt else .eq

def cmpStringList : List String → List String → Ordering
  | [], [] => .eq
  | [], _ :: _ => .lt
  | _ :: _, [] => .gt
  | a :: l1, b :: l2 => (cmpString a b).then (cmpStringList l1 l2)

mutual

/-- Rust's derived `Ord` on `HIRType`: discriminant first, then the fields
lexicographically (`Vec` and `BTreeMap` compare as sequences). -/
def cmp : HIRType → HIRType → Ordering
  | .GenericsTypeArgument i, .GenericsTypeArgument j => cmpNat i j
  | .Named p1 g1, .Named p2 g2 => (cmpStringList p1 p2).then (cmpL g1 g2)
  | .Tuple l1, .Tuple l2 => cmpL l1 l2
  | .Array t1, .Array t2 => cmp t1 t2
  | .Function a1 r1, .Function a2 r2 => (cmpL a1 a2).then (cmp r1 r2)
  | .AnonymousStruct m1, .AnonymousStruct m2 => cmpM m1 m2
  | .Or l1, .Or l2 => cmpL l1 l2
  | a, b => cmpNat (tag a) (tag b)
termination_by a b => sizeOf a + sizeOf b

def cmpL : List HIRType → List HIRType → Ordering
  | [], [] => .eq
  | [], _ :: _ => .lt
  | _ :: _, [] => .gt
  | t1 :: l1, t2 :: l2 => (cmp t1 t2).then (cmpL l1 l2)
termination_by l1 l2 => sizeOf l1 + sizeOf l2

def cmpM : List (String × HIRType) → List (String × HIRType) → Ordering
  | [], [] => .eq
  | [], _ :: _ => .lt
  | _ :: _, [] => .gt
  | (k1, v1) :: l1, (k2, v2) :: l2 => ((cmpString k1 k2).then (cmp v1 v2)).then (cmpM l1 l2)
termination_by l1 l2 => sizeOf l1 + sizeOf l2

end

/-- The flattening step of `normalize` on an `Or`: splice every component that is
itself an `Or` into the surrounding list. -/
def flattenOr : List HIRType → List HIRType
  | [] => []
  | .Or l :: rest => l ++ flattenOr rest
  | t :: rest => t :: flattenOr rest

/-- Sorted insertion with respect to `cmp` (stable). -/
def insertType (a : HIRType) : List HIRType → List HIRType
  | [] => [a]
  | b :: l => if cmp a b = .gt then b :: insertType a l else a :: b :: l

/-- `slice::sort` with respect to the derived `Ord`, as a stable insertion sort. -/
def sortTypes : List HIRType → List HIRType
  | [] => []
  | a :: l => insertType a (sortTypes l)

/-- `Vec::dedup`: remove consecutive equal elements, keeping the first. -/
def dedupTypes : List HIRType → List HIRType
  | [] => []
  | [a] => [a]
  | a :: b :: rest => if beq a b then dedupTypes (a :: rest) else a :: dedupTypes (b :: rest)

mutual

/-- `HIRType::normalize` (value-returning form of the in-place method). `Or` lists
are flattened, sorted, deduplicated, stripped of `Unreachable` when more than one
component remains, and collapsed when exactly one remains; other composites are
normalized in their children; `Infer`, `Unreachable`, `GenericsTypeArgument` and
`Named` are untouched (the Rust `_ => {}` arm). -/
def normalize : HIRType → HIRType
  | .Tuple items => .Tuple (normalizeList items)
  | .Array item => .Array (normalize item)
  | .Function args res => .Function (normalizeList args) (normalize res)
  | .AnonymousStruct members => .AnonymousStruct (normalizeMembers members)
  | .Or items =>
    let items1 := flattenOr (normalizeList items)
    let items2 := dedupTypes (sortTypes items1)
    let items3 := if 1 < items2.length then items2.filter (fun t => !(beq t .Unreachable)) else items2
    match items3 with
    | [t] => t
    | l => .Or l
  | t => t
termination_by t => sizeOf t

def normalizeList : List HIRType → List HIRType
  | [] => []
  | t :: ts => normalize t :: normalizeList ts
termination_by l => sizeOf l

def normalizeMembers : List (String × HIRType) → List (String × HIRType)
  | [] => []
  | (k, v) :: rest => (k, normalize v) :: normalizeMembers rest
termination_by l => sizeOf l

end

/-- `HIRType::into_normalized`. -/
def into_normalized (t : HIRType) : HIRType := normalize t

/-- One fold step of the `Tuple × Or` clause of `intersect_to`: push each component
of `row` onto the per-position accumulator (`iter_mut().zip(..)` truncates). -/
def pushRow (acc : List (List HIRType)) (row : List HIRType) : List (List HIRType) :=
  List.zipWith (fun l t => l ++ [t]) acc row

/-- `BTreeMap::entry(key).or_insert_with(Vec::new).push(ty)` on an association list. -/
def pushEntry (k : String) (t : HIRType) :
    List (String × List HIRType) → List (String × List HIRType)
  | [] => [(k, [t])]
  | (k', l) :: rest => if k' = k then (k', l ++ [t]) :: rest else (k', l) :: pushEntry k t rest

def entryFold (acc : List (String × List HIRType)) (row : List (String × HIRType)) :
    List (String × List HIRType) :=
  row.foldl (fun acc kt => pushEntry kt.1 kt.2 acc) acc

mutual

/-- `HIRType::intersect_to` — clauses in source order; a failed guard falls through
to the later clauses exactly as in the Rust `match`. -/
def intersect_to (a b : HIRType) : HIRType :=
  if beq a b then a
  else match a, b with
    | .Infer, rhs => rhs
    | this, .Infer => this
    | .Tuple items1, .Tuple items2 =>
      if items1.length ≤ items2.length then .Tuple (intersectZip items1 items2) else .Tuple items1
    | .Array t1, .Array t2 => .Array (intersect_to t1 t2)
    | .AnonymousStruct m1, .AnonymousStruct m2 =>
      (match intersectStructOpt m2 m1 with
       | some ms => .AnonymousStruct ms
       | none => .AnonymousStruct m1)
    | .Or items1, ty2 => .Or (intersectOrLeft items1 ty2)
    | .Tuple items1, .Or types =>
      .Tuple (((tupleOrRows items1 types).foldl pushRow (List.replicate items1.length [])).map .Or)
    | .Array t1, .Or types => .Array (normalize (.Or (arrayOrCands t1 types)))
    | .AnonymousStruct m1, .Or types =>
      .AnonymousStruct (((structOrRows m1 types).foldl entryFold []).map
        (fun p => (p.1, normalize (.Or p.2))))
    | ty1, _ => ty1
termination_by sizeOf a + sizeOf b

def intersectZip : List HIRType → List HIRType → List HIRType
  | t1 :: l1, t2 :: l2 => intersect_to t1 t2 :: intersectZip l1 l2
  | _, _ => []
termination_by l1 l2 => sizeOf l1 + sizeOf l2

/-- The `AnonymousStruct × AnonymousStruct` clause: `none` models the early
`return ty1.clone()` on the first key of the left map missing from the right. -/
def intersectStructOpt (m2 : List (String × HIRType)) :
    List (String × HIRType) → Option (List (String × HIRType))
  | [] => some []
  | (k, v) :: rest =>
    match h : lookup k m2 with
    | some t2 =>
      match intersectStructOpt m2 rest with
      | some ms => some ((k, intersect_to v t2) :: ms)
      | none => none
    | none => none
termination_by m1 => sizeOf m2 + sizeOf m1
decreasing_by
  all_goals ((try have := lookup_sizeOf h); (try simp); (try omega))

def intersectOrLeft : List HIRType → HIRType → List HIRType
  | [], _ => []
  | t :: ts, u => intersect_to t u :: intersectOrLeft ts u
termination_by l u => sizeOf l + sizeOf u

/-- The `filter_map` of the `Tuple × Or` clause: one row of per-position
intersections for each `Or` component that is a tuple supertype of the left tuple. -/
def tupleOrRows (items1 : List HIRType) : List HIRType → List (List HIRType)
  | [] => []
  | c :: rest =>
    match c with
    | .Tuple items2 =>
      if is_a (.Tuple items2) (.Tuple items1) then
        intersectZip items1 items2 :: tupleOrRows items1 rest
      else tupleOrRows items1 rest
    | _ => tupleOrRows items1 rest
termination_by l => sizeOf items1 + sizeOf l

/-- The `filter_map` of the `Array × Or` clause. -/
def arrayOrCands (t1 : HIRType) : List HIRType → List HIRType
  | [] => []
  | c :: rest =>
    match c with
    | .Array te =>
      if is_a te t1 then intersect_to t1 te :: arrayOrCands t1 rest else arrayOrCands t1 rest
    | _ => arrayOrCands t1 rest
termination_by l => sizeOf t1 + sizeOf l

/-- The `filter_map` of the `AnonymousStruct × Or` clause. -/
def structOrRows (m1 : List (String × HIRType)) : List HIRType → List (List (String × HIRType))
  | [] => []
  | c :: rest =>
    match c with
    | .AnonymousStruct m2 =>
      if is_a (.AnonymousStruct m2) (.AnonymousStruct m1) then
        structOrRow m2 m1 :: structOrRows m1 rest
      else structOrRows m1 rest
    | _ => structOrRows m1 rest
termination_by l => sizeOf m1 + sizeOf l

def structOrRow (m2 : List (String × HIRType)) : List (String × HIRType) → List (String × HIRType)
  | [] => []
  | (k, v) :: rest =>
    -- the `none` branch is unreachable at call sites: the `is_a` guard on the candidate
    -- guarantees every key of the left struct is present in `m2` (Rust uses `unwrap()`)
    (k, (match h : lookup k m2 with
         | some t2 => intersect_to v t2
         | none => v)) :: structOrRow m2 rest
termination_by m1 => sizeOf m2 + sizeOf m1
decreasing_by
  all_goals ((try have := lookup_sizeOf h); (try simp); (try omega))

end

mutual

/-- `HIRType::apply_generics_type_argument`: substitute `args[i]` for
`GenericsTypeArgument(i)`, `none` when some index is out of bounds. -/
def apply_generics_type_argument : HIRType → List HIRType → Option HIRType
  | .Infer, _ => some .Infer
  | .Unreachable, _ => some .Unreachable
  | .GenericsTypeArgument i, args => args[i]?
  | .Named p g, args => (applyL g args).map (fun gs => .Named p gs)
  | .Tuple l, args => (applyL l args).map .Tuple
  | .Array t, args => (apply_generics_type_argument t args).map .Array
  | .Function a r, args =>
    match applyL a args, apply_generics_type_argument r args with
    | some a', some r' => some (.Function a' r')
    | _, _ => none
  | .AnonymousStruct m, args => (applyM m args).map .AnonymousStruct
  | .Or l, args => (applyL l args).map .Or
termination_by t _ => sizeOf t

def applyL : List HIRType → List HIRType → Option (List HIRType)
  | [], _ => some []
  | t :: ts, args =>
    match apply_generics_type_argument t args, applyL ts args with
    | some t', some ts' => some (t' :: ts')
    | _, _ => none
termination_by l _ => sizeOf l

def applyM : List (String × HIRType) → List HIRType → Option (List (String × HIRType))
  | [], _ => some []
  | (k, v) :: rest, args =>
    match apply_generics_type_argument v args, applyM rest args with
    | some v', some rest' => some ((k, v') :: rest')
    | _, _ => none
termination_by l _ => sizeOf l

end

mutual

/-- `HIRType::member_type` (the `Cow` of the Rust signature is erased). -/
def member_type : HIRType → String → Option HIRType
  | .Infer, _ => some .Infer
  | .AnonymousStruct members, name => lookup name members
  | .Or items, name => (memberTypeList items name).map .Or
  | _, _ => none
termination_by t _ => sizeOf t

def memberTypeList : List HIRType → String → Option (List HIRType)
  | [], _ => some []
  | t :: ts, name =>
    match member_type t name with
    | some r =>
      match memberTypeList ts name with
      | some rs => some (r :: rs)
      | none => none
    | none => none
termination_by l _ => sizeOf l

end

/-- `true` exactly on the `Or` variant. -/
def isOrT : HIRType → Bool
  | .Or _ => true
  | _ => false

mutual

/-- No `Unreachable` occurs anywhere in the type. -/
def ufree : HIRType → Bool
  | .Infer => true
  | .Unreachable => false
  | .GenericsTypeArgument _ => true
  | .Named _ g => ufreeL g
  | .Tuple l => ufreeL l
  | .Array t => ufree t
  | .Function a r => ufreeL a && ufree r
  | .AnonymousStruct m => ufreeM m
  | .Or l => ufreeL l
termination_by t => sizeOf t

def ufreeL : List HIRType → Bool
  | [] => true
  | t :: ts => ufree t && ufreeL ts
termination_by l => sizeOf l

def ufreeM : List (String × HIRType) → Bool
  | [] => true
  | (_, v) :: rest => ufree v && ufreeM rest
termination_by l => sizeOf l

end

def containsKey (k : String) (m : List (String × HIRType)) : Bool :=
  (lookup k m).isSome

/-- The member lists of every `AnonymousStruct` node have pairwise-distinct keys —
true of every value in the image of Rust's `BTreeMap`-backed type. -/
def nodupKeys : List (String × HIRType) → Bool
  | [] => true
  | (k, _) :: rest => !(containsKey k rest) && nodupKeys rest

mutual

def wellFormed : HIRType → Bool
  | .Infer => true
  | .Unreachable => true
  | .GenericsTypeArgument _ => true
  | .Named _ g => wellFormedL g
  | .Tuple l => wellFormedL l
  | .Array t => wellFormed t
  | .Function a r => wellFormedL a && wellFormed r
  | .AnonymousStruct m => nodupKeys m && wellFormedM m
  | .Or l => wellFormedL l
termination_by t => sizeOf t

def wellFormedL : List HIRType → Bool
  | [] => true
  | t :: ts => wellFormed t && wellFormedL ts
termination_by l => sizeOf l

def wellFormedM : List (String × HIRType) → Bool
  | [] => true
  | (_, v) :: rest => wellFormed v && wellFormedM rest
termination_by l => sizeOf l

end

mutual

/-- The shape invariant of `normalize`'s output: every `Or` list is flat (no `Or`
components), strictly sorted by `cmp`, never a singleton, and free of
`Unreachable` when it has at least two components; children are normalized.
`Named` carries no condition because `normalize` does not descend into it. -/
def Normalized : HIRType → Prop
  | .Tuple l => NormalizedL l
  | .Array t => Normalized t
  | .Function a r => NormalizedL a ∧ Normalized r
  | .AnonymousStruct m => NormalizedM m
  | .Or l => NormalizedL l ∧ (∀ x ∈ l, isOrT x = false) ∧
      List.Chain' (fun x y => cmp x y = .lt) l ∧ l.length ≠ 1 ∧
      (1 < l.length → HIRType.Unreachable ∉ l)
  | _ => True
termination_by t => sizeOf t

def NormalizedL : List HIRType → Prop
  | [] => True
  | t :: ts => Normalized t ∧ NormalizedL ts
termination_by l => sizeOf l

def NormalizedM : List (String × HIRType) → Prop
  | [] => True
  | (_, v) :: rest => Normalized v ∧ NormalizedM rest
termination_by l => sizeOf l

end

/-- Spec-side (claim C3): the `Or` components retained by the `Tuple × Or` clause —
exactly the tuples that are supertypes of the left tuple. -/
def keptTuples (items : List HIRType) : List HIRType → List (List HIRType)
  | [] => []
  | c :: rest =>
    match c with
    | .Tuple cits =>
      if is_a (.Tuple cits) (.Tuple items) then cits :: keptTuples items rest
      else keptTuples items rest
    | _ => keptTuples items rest

mutual

/-- Spec-side (claim C6): does the type contain a `GenericsTypeArgument(i)` with
`i ≥ n`? -/
def hasOOB : HIRType → Nat → Bool
  | .Infer, _ => false
  | .Unreachable, _ => false
  | .GenericsTypeArgument i, n => n ≤ i
  | .Named _ g, n => hasOOBL g n
  | .Tuple l, n => hasOOBL l n
  | .Array t, n => hasOOB t n
  | .Function a r, n => hasOOBL a n || hasOOB r n
  | .AnonymousStruct m, n => hasOOBM m n
  | .Or l, n => hasOOBL l n

/-- Spec-side list form of `hasOOB`. -/
def hasOOBL : List HIRType → Nat → Bool
  | [], _ => false
  | t :: ts, n => hasOOB t n || hasOOBL ts n

/-- Spec-side member form of `hasOOB`. -/
def hasOOBM : List (String × HIRType) → Nat → Bool
  | [], _ => false
  | (_, v) :: rest, n => hasOOB v n || hasOOBM rest n

end

mutual

/-- Spec-side (claim C6): total substitution of `args[i]` for
`GenericsTypeArgument(i)`, recursing through every composite constructor and
leaving `Infer` and `Unreachable` unchanged (meaningful when no index is out of
bounds). -/
def subst : HIRType → List HIRType → HIRType
  | .Infer, _ => .Infer
  | .Unreachable, _ => .Unreachable
  | .GenericsTypeArgument i, args => args.getD i (.GenericsTypeArgument i)
  | .Named p g, args => .Named p (substL g args)
  | .Tuple l, args => .Tuple (substL l args)
  | .Array t, args => .Array (subst t args)
  | .Function a r, args => .Function (substL a args) (subst r args)
  | .AnonymousStruct m, args => .AnonymousStruct (substM m args)
  | .Or l, args => .Or (substL l args)

/-- Spec-side list form of `subst`. -/
def substL : List HIRType → List HIRType → List HIRType
  | [], _ => []
  | t :: ts, args => subst t args :: substL ts args

/-- Spec-side member form of `subst`. -/
def substM : List (String × HIRType) → List HIRType → List (String × HIRType)
  | [], _ => []
  | (k, v) :: rest, args => (k, subst v args) :: substM rest args

end

end Kirl

namespace Kirl

/-- Named placeholder type `A` of the spec's `intersect_to` example. -/
def tyA : HIRType := .Named ["A"] []

/-- Named placeholder type `B` of the spec's `intersect_to` example. -/
def tyB : HIRType := .Named ["B"] []

/-- Named placeholder type `C` of the spec's `intersect_to` example. -/
def tyC : HIRType := .Named ["C"] []

/-- Named placeholder type `X` of the spec's `member_type` example. -/
def tyX : HIRType := .Named ["X"] []

/-- Named placeholder type `Y` of the spec's `member_type` example. -/
def tyY : HIRType := .Named ["Y"] []

/-- Modelled from the spec: the error surface of type/pattern conversion
(`HIRTypeConvertError`, §6.3: the single convert-time error `DuplicatedMember`). -/
inductive HIRTypeConvertError where
  | DuplicatedMember (name : String)
  deriving DecidableEq

/-- Modelled from the spec: the parser's surface `Type` (§6.1), with the shapes the
conversion destructures — `None`, `Unreachable`, named types with path and generic
arguments, tuples, arrays, functions, anonymous structs with an ordered member
list, and unions. Source positions carried by the parser are `Nat` placeholders. -/
inductive SType where
  | None
  | Unreachable (pos : Nat)
  | NamedType (path : List String) (generics_arguments : List SType)
  | Tuple (pos : Nat) (items : List SType)
  | Array (pos : Nat) (item : SType)
  | Function (argument : List SType) (result : SType)
  | AnonymousStruct (members : List (String × SType))
  | Or (pos : Nat) (items : List SType)

/-- Modelled from the spec: the parser's `StructName` as destructured by pattern
conversion — a named head (path and generic type arguments) or anonymous. -/
inductive StructName where
  | Named (path : List String) (generics_arguments : List SType)
  | Anonymous

/-- Modelled from the spec: the parser's `Pattern` (§4.1) — a variable, a tuple of
sub-patterns, or a struct pattern with a name head and named member sub-patterns. -/
inductive Pattern where
  | Variable (name : String)
  | Tuple (items : List Pattern)
  | Struct (name : StructName) (members : List (String × Pattern))

/-- `BTreeMap::insert` on a key-sorted association list (key assumed fresh). -/
def insertSorted (k : String) (v : HIRType) :
    List (String × HIRType) → List (String × HIRType)
  | [] => [(k, v)]
  | (k', v') :: rest =>
    if k < k' then (k, v) :: (k', v') :: rest else (k', v') :: insertSorted k v rest

mutual

/-- `impl TryFrom<Type> for HIRType`. -/
def tryFromType : SType → Except HIRTypeConvertError HIRType
  | .None => .ok (.Tuple [])
  | .Unreachable _ => .ok .Unreachable
  | .NamedType path generics_arguments =>
    match tryFromTypeList generics_arguments with
    | .ok gs => .ok (.Named path gs)
    | .error e => .error e
  | .Tuple _ items =>
    match tryFromTypeList items with
    | .ok ts => .ok (.Tuple ts)
    | .error e => .error e
  | .Array _ item =>
    match tryFromType item with
    | .ok t => .ok (.Array t)
    | .error e => .error e
  | .Function argument result =>
    match tryFromTypeList argument with
    | .ok args =>
      match tryFromType result with
      | .ok r => .ok (.Function args r)
      | .error e => .error e
    | .error e => .error e
  | .AnonymousStruct members =>
    match tryFromTypeMembers [] members with
    | .ok ms => .ok (.AnonymousStruct ms)
    | .error e => .error e
  | .Or _ items =>
    match tryFromTypeList items with
    | .ok ts => .ok (.Or ts)
    | .error e => .error e
termination_by t => sizeOf t

def tryFromTypeList : List SType → Except HIRTypeConvertError (List HIRType)
  | [] => .ok []
  | t :: ts =>
    match tryFromType t with
    | .ok t' =>
      match tryFromTypeList ts with
      | .ok ts' => .ok (t' :: ts')
      | .error e => .error e
    | .error e => .error e
termination_by l => sizeOf l

/-- The member loop of the `AnonymousStruct` conversion: fail with
`DuplicatedMember` when the name is already present, else convert and insert. -/
def tryFromTypeMembers (acc : List (String × HIRType)) :
    List (String × SType) → Except HIRTypeConvertError (List (String × HIRType))
  | [] => .ok acc
  | (name, ty) :: rest =>
    if containsKey name acc then .error (.DuplicatedMember name)
    else
      match tryFromType ty with
      | .ok v => tryFromTypeMembers (insertSorted name v acc) rest
      | .error e => .error e
termination_by l => sizeOf l

end

mutual

/-- `impl TryFrom<&Pattern> for HIRType`. Note the named-struct clause converts only
the generic type arguments and ignores the member patterns, as the source does. -/
def tryFromPattern : Pattern → Except HIRTypeConvertError HIRType
  | .Variable _ => .ok .Infer
  | .Tuple items =>
    match tryFromPatternList items with
    | .ok ts => .ok (.Tuple ts)
    | .error e => .error e
  | .Struct (.Named path generics_arguments) _ =>
    match tryFromTypeList generics_arguments with
    | .ok gs => .ok (.Named path gs)
    | .error e => .error e
  | .Struct .Anonymous members =>
    match tryFromPatternMembers [] members with
    | .ok ms => .ok (.AnonymousStruct ms)
    | .error e => .error e
termination_by p => sizeOf p

def tryFromPatternList : List Pattern → Except HIRTypeConvertError (List HIRType)
  | [] => .ok []
  | p :: ps =>
    match tryFromPattern p with
    | .ok t' =>
      match tryFromPatternList ps with
      | .ok ts' => .ok (t' :: ts')
      | .error e => .error e
    | .error e => .error e
termination_by l => sizeOf l

def tryFromPatternMembers (acc : List (String × HIRType)) :
    List (String × Pattern) → Except HIRTypeConvertError (List (String × HIRType))
  | [] => .ok acc
  | (name, pat) :: rest =>
    if containsKey name acc then .error (.DuplicatedMember name)
    else
      match tryFromPattern pat with
      | .ok v => tryFromPatternMembers (insertSorted name v acc) rest
      | .error e => .error e
termination_by l => sizeOf l

end

/-- Spec-side (claim C4): some name occurs twice in the list. -/
def hasDupKeys : List String → Bool
  | [] => false
  | n :: rest => rest.contains n || hasDupKeys rest

mutual

/-- Spec-side (claim C4): some anonymous-struct form at some nesting level of the
surface type has two members with the same name. -/
def typeHasDup : SType → Bool
  | .None => false
  | .Unreachable _ => false
  | .NamedType _ g => typeHasDupL g
  | .Tuple _ l => typeHasDupL l
  | .Array _ t => typeHasDup t
  | .Function a r => typeHasDupL a || typeHasDup r
  | .AnonymousStruct members => hasDupKeys (members.map Prod.fst) || typeHasDupM members
  | .Or _ l => typeHasDupL l

def typeHasDupL : List SType → Bool
  | [] => false
  | t :: ts => typeHasDup t || typeHasDupL ts

def typeHasDupM : List (String × SType) → Bool
  | [] => false
  | (_, t) :: rest => typeHasDup t || typeHasDupM rest

end

mutual

/-- Spec-side (claim C4): some anonymous-struct form at some nesting level of the
surface type uses the field name `n` twice. -/
def typeUsesTwice (n : String) : SType → Bool
  | .None => false
  | .Unreachable _ => false
  | .NamedType _ g => typeUsesTwiceL n g
  | .Tuple _ l => typeUsesTwiceL n l
  | .Array _ t => typeUsesTwice n t
  | .Function a r => typeUsesTwiceL n a || typeUsesTwice n r
  | .AnonymousStruct members =>
    decide (2 ≤ (members.map Prod.fst).count n) || typeUsesTwiceM n members
  | .Or _ l => typeUsesTwiceL n l

def typeUsesTwiceL (n : String) : List SType → Bool
  | [] => false
  | t :: ts => typeUsesTwice n t || typeUsesTwiceL n ts

def typeUsesTwiceM (n : String) : List (String × SType) → Bool
  | [] => false
  | (_, t) :: rest => typeUsesTwice n t || typeUsesTwiceM n rest

end

mutual

/-- Spec-side (claim C4): a duplicate member name at some nesting level of the
pattern that the conversion actually traverses (member patterns under a
named-struct pattern are not traversed). -/
def patHasDupTrav : Pattern → Bool
  | .Variable _ => false
  | .Tuple l => patHasDupTravL l
  | .Struct (.Named _ g) _ => typeHasDupL g
  | .Struct .Anonymous members => hasDupKeys (members.map Prod.fst) || patHasDupTravM members

def patHasDupTravL : List Pattern → Bool
  | [] => false
  | p :: ps => patHasDupTrav p || patHasDupTravL ps

def patHasDupTravM : List (String × Pattern) → Bool
  | [] => false
  | (_, p) :: rest => patHasDupTrav p || patHasDupTravM rest

end

mutual

/-- Spec-side (claim C4): the traversed part of the pattern uses the name `n`
twice in some anonymous-struct form. -/
def patUsesTwiceTrav (n : String) : Pattern → Bool
  | .Variable _ => false
  | .Tuple l => patUsesTwiceTravL n l
  | .Struct (.Named _ g) _ => typeUsesTwiceL n g
  | .Struct .Anonymous members =>
    decide (2 ≤ (members.map Prod.fst).count n) || patUsesTwiceTravM n members

def patUsesTwiceTravL (n : String) : List Pattern → Bool
  | [] => false
  | p :: ps => patUsesTwiceTrav n p || patUsesTwiceTravL n ps

def patUsesTwiceTravM (n : String) : List (String × Pattern) → Bool
  | [] => false
  | (_, p) :: rest => patUsesTwiceTrav n p || patUsesTwiceTravM n rest

end

mutual

/-- Spec-side (claim C4): some anonymous-struct form at **any** nesting level of
the pattern — including member patterns under a named-struct head — uses the
field name `n` twice. -/
def patUsesTwiceFull (n : String) : Pattern → Bool
  | .Variable _ => false
  | .Tuple l => patUsesTwiceFullL n l
  | .Struct (.Named _ g) members => typeUsesTwiceL n g || patUsesTwiceFullM n members
  | .Struct .Anonymous members =>
    decide (2 ≤ (members.map Prod.fst).count n) || patUsesTwiceFullM n members

def patUsesTwiceFullL (n : String) : List Pattern → Bool
  | [] => false
  | p :: ps => patUsesTwiceFull n p || patUsesTwiceFullL n ps

def patUsesTwiceFullM (n : String) : List (String × Pattern) → Bool
  | [] => false
  | (_, p) :: rest => patUsesTwiceFull n p || patUsesTwiceFullM n rest

end

/-- Proof-side helper for claim C4: the shape of the member-loop failure
condition, threaded through the already-seen keys. -/
def dupFromT (seen : List String) : List (String × SType) → Bool
  | [] => false
  | (name, ty) :: rest =>
    seen.contains name || typeHasDup ty || dupFromT (name :: seen) rest

/-- Proof-side helper for claim C4, pattern form. -/
def dupFromP (seen : List String) : List (String × Pattern) → Bool
  | [] => false
  | (name, p) :: rest =>
    seen.contains name || patHasDupTrav p || dupFromP (name :: seen) rest

/-- Modelled from the spec: the parser's `ImportPath` — a simple path or a list of
sub-paths (`ImportPath::List` is the shape the splitter emits). -/
inductive ImportPath where
  | Item (path : List String)
  | List (paths : List ImportPath)

/-- Modelled from the spec: a parsed statement item; only whether it is an `import`
(and which path it imports) matters to the top-level splitter. -/
inductive StatementItem where
  | Import (path : ImportPath)
  | Other (code : Nat)

/-- Modelled from the spec: a parsed statement — a source position and its item. -/
structure KStatement where
  position : Nat
  statement : StatementItem

/-- Modelled from the spec: an opaque parsed function definition. -/
structure KFunction where
  code : Nat

/-- Modelled from the spec: an opaque parsed struct definition. -/
structure KStruct where
  code : Nat

/-- Modelled from the spec: a top-level item — a statement, a function definition
or a struct definition, each paired with a source position. -/
inductive KirlTopLevelStatement where
  | Statement (s : Nat × KStatement)
  | FunctionDefinition (f : Nat × KFunction)
  | StructDefinition (s : Nat × KStruct)

/-- `WithImport` — `import` is a Lean keyword, so the field is `importPath`. -/
structure WithImport (T : Type) where
  importPath : ImportPath
  item : T

structure KirlTopLevelItems where
  statements : List KStatement
  structs : List (WithImport KStruct)
  functions : List (WithImport KFunction)

/-- The loop of `collect_top_level_item_with_imports`, with the four accumulating
vectors as explicit arguments. -/
def collectGo : List KirlTopLevelStatement → List KStatement → List (WithImport KStruct) →
    List (WithImport KFunction) → List ImportPath → KirlTopLevelItems
  | [], sts, strs, fns, _ => ⟨sts, strs, fns⟩
  | .Statement (_, s) :: rest, sts, strs, fns, imports =>
    let imports' := match s.statement with
      | .Import ip => imports ++ [ip]
      | _ => imports
    collectGo rest (sts ++ [s]) strs fns imports'
  | .FunctionDefinition (_, f) :: rest, sts, strs, fns, imports =>
    collectGo rest sts strs (fns ++ [⟨ImportPath.List imports, f⟩]) imports
  | .StructDefinition (_, st) :: rest, sts, strs, fns, imports =>
    collectGo rest sts (strs ++ [⟨ImportPath.List imports, st⟩]) fns imports

/-- `collect_top_level_item_with_imports`. -/
def collect_top_level_item_with_imports (l : List KirlTopLevelStatement) : KirlTopLevelItems :=
  collectGo l [] [] [] []

/-- Spec-side (claim C5): the import directives among a top-level prefix, in order. -/
def importsOf : List KirlTopLevelStatement → List ImportPath
  | [] => []
  | .Statement (_, s) :: rest =>
    (match s.statement with
     | .Import ip => [ip]
     | _ => []) ++ importsOf rest
  | _ :: rest => importsOf rest

/-- Spec-side (claim C5): the statement items of the input, in source order. -/
def statementsOf : List KirlTopLevelStatement → List KStatement
  | [] => []
  | .Statement (_, s) :: rest => s :: statementsOf rest
  | _ :: rest => statementsOf rest

/-- Spec-side (claim C5): each function definition paired with the imports that
appeared textually before it (`before` is the already-seen prefix). -/
def functionsSpecAux (before : List KirlTopLevelStatement) :
    List KirlTopLevelStatement → List (WithImport KFunction)
  | [] => []
  | x :: rest =>
    (match x with
     | .FunctionDefinition (_, f) => [⟨ImportPath.List (importsOf before), f⟩]
     | _ => []) ++ functionsSpecAux (before ++ [x]) rest

/-- Spec-side (claim C5): each struct definition paired with the imports that
appeared textually before it. -/
def structsSpecAux (before : List KirlTopLevelStatement) :
    List KirlTopLevelStatement → List (WithImport KStruct)
  | [] => []
  | x :: rest =>
    (match x with
     | .StructDefinition (_, st) => [⟨ImportPath.List (importsOf before), st⟩]
     | _ => []) ++ structsSpecAux (before ++ [x]) rest

/-- `StatementReachable` — the three-valued reachability flag. -/
inductive StatementReachable where
  | Reachable
  | UnreachableByReturn
  | UnreachableByBreak (label : Option String)
  deriving DecidableEq

/-- `StatementReachable::combine` (value-returning form of the in-place method);
arms in source order. -/
def combine : StatementReachable → StatementReachable → StatementReachable
  | .Reachable, _ => .Reachable
  | _, .Reachable => .Reachable
  | .UnreachableByBreak _, _ => .UnreachableByBreak none
  | _, .UnreachableByBreak _ => .UnreachableByBreak none
  | _, _ => .UnreachableByReturn

end Kirl

namespace Kirl

/-! ## Basic lemmas -/

theorem beq_iff_eq : ∀ a b : HIRType, beq a b = true ↔ a = b := by
  have main : ∀ n, (∀ a b : HIRType, sizeOf a + sizeOf b ≤ n → (beq a b = true ↔ a = b))
      ∧ (∀ l1 l2 : List HIRType, sizeOf l1 + sizeOf l2 ≤ n → (beqL l1 l2 = true ↔ l1 = l2))
      ∧ (∀ m1 m2 : List (String × HIRType), sizeOf m1 + sizeOf m2 ≤ n →
          (beqM m1 m2 = true ↔ m1 = m2)) := by
    intro n
    induction n using Nat.strong_induction_on with
    | _ n ih =>
      refine ⟨?_, ?_, ?_⟩
      · intro a b hn
        cases a <;> cases b <;> simp [beq]
        case Named.Named p1 g1 p2 g2 =>
          have hl := (ih (sizeOf g1 + sizeOf g2) (by simp at hn ⊢; omega)).2.1 g1 g2 (le_refl _)
          rw [hl]; tauto
        case Tuple.Tuple l1 l2 =>
          exact (ih (sizeOf l1 + sizeOf l2) (by simp at hn ⊢; omega)).2.1 l1 l2 (le_refl _)
        case Array.Array t1 t2 =>
          exact (ih (sizeOf t1 + sizeOf t2) (by simp at hn ⊢; omega)).1 t1 t2 (le_refl _)
        case Function.Function a1 r1 a2 r2 =>
          have h1 := (ih (sizeOf a1 + sizeOf a2) (by simp at hn ⊢; omega)).2.1 a1 a2 (le_refl _)
          have h2 := (ih (sizeOf r1 + sizeOf r2) (by simp at hn ⊢; omega)).1 r1 r2 (le_refl _)
          rw [h1, h2]; try tauto
        case AnonymousStruct.AnonymousStruct m1 m2 =>
          exact (ih (sizeOf m1 + sizeOf m2) (by simp at hn ⊢; omega)).2.2 m1 m2 (le_refl _)
        case Or.Or l1 l2 =>
          exact (ih (sizeOf l1 + sizeOf l2) (by simp at hn ⊢; omega)).2.1 l1 l2 (le_refl _)
      · intro l1 l2 hn
        cases l1 <;> cases l2 <;> simp [beqL]
        case cons.cons t1 r1 t2 r2 =>
          have h1 := (ih (sizeOf t1 + sizeOf t2) (by simp at hn ⊢; omega)).1 t1 t2 (le_refl _)
          have h2 := (ih (sizeOf r1 + sizeOf r2) (by simp at hn ⊢; omega)).2.1 r1 r2 (le_refl _)
          rw [h1, h2]
      · intro m1 m2 hn
        cases m1 <;> cases m2 <;> simp [beqM]
        case cons.cons p1 r1 p2 r2 =>
          obtain ⟨k1, v1⟩ := p1
          obtain ⟨k2, v2⟩ := p2
          simp [beqM]
          have h1 := (ih (sizeOf v1 + sizeOf v2) (by simp at hn ⊢; omega)).1 v1 v2 (le_refl _)
          have h2 := (ih (sizeOf r1 + sizeOf r2) (by simp at hn ⊢; omega)).2.2 r1 r2 (le_refl _)
          rw [h1, h2]; try tauto
  intro a b
  exact (main (sizeOf a + sizeOf b)).1 a b (le_refl _)

theorem beq_refl (a : HIRType) : beq a a = true := (beq_iff_eq a a).mpr rfl

theorem beq_eq_false_iff {a b : HIRType} : beq a b = false ↔ a ≠ b := by
  rw [← Bool.not_eq_true, not_iff_not]
  exact beq_iff_eq a b

@[simp] theorem is_a_infer_left (t : HIRType) : is_a .Infer t = true := by
  cases t <;> simp [is_a]

@[simp] theorem is_a_infer_right (t : HIRType) : is_a t .Infer = true := by
  cases t <;> simp [is_a]

@[simp] theorem is_a_unreachable_left (t : HIRType) : is_a .Unreachable t = true := by
  cases t <;> simp [is_a]

theorem is_a_unreachable_right {t : HIRType} (h1 : t ≠ .Infer) (h2 : t ≠ .Unreachable) :
    is_a t .Unreachable = false := by
  cases t <;> simp_all [is_a]

theorem is_a_or_left {l : List HIRType} {t : HIRType} (h1 : t ≠ .Infer)
    (h2 : t ≠ .Unreachable) : is_a (.Or l) t = isAAllLeft l t := by
  cases t <;> simp_all [is_a]

theorem is_a_or_right {s : HIRType} {l : List HIRType} (h1 : s ≠ .Infer)
    (h2 : s ≠ .Unreachable) (h3 : isOrT s = false) : is_a s (.Or l) = isAAnyRight s l := by
  cases s <;> simp_all [is_a, isOrT]

theorem isAAllLeft_iff {l : List HIRType} {t : HIRType} :
    isAAllLeft l t = true ↔ ∀ x ∈ l, is_a x t = true := by
  induction l with
  | nil => simp [isAAllLeft]
  | cons x xs ih => simp [isAAllLeft, ih]

theorem isAAnyRight_iff {s : HIRType} {l : List HIRType} :
    isAAnyRight s l = true ↔ ∃ u ∈ l, is_a s u = true := by
  induction l with
  | nil => simp [isAAnyRight]
  | cons x xs ih => simp [isAAnyRight, ih]

theorem isAZip_iff : ∀ {l1 l2 : List HIRType},
    isAZip l1 l2 = true ↔ ∀ p ∈ l1.zip l2, is_a p.1 p.2 = true := by
  intro l1
  induction l1 with
  | nil => intro l2; simp [isAZip]
  | cons x xs ih =>
    intro l2
    cases l2 with
    | nil => simp [isAZip]
    | cons y ys => simp [isAZip, ih]

theorem isAStruct_iff {m1 m2 : List (String × HIRType)} :
    isAStruct m1 m2 = true ↔
      ∀ p ∈ m2, ∃ v1, lookup p.1 m1 = some v1 ∧ is_a v1 p.2 = true := by
  induction m2 with
  | nil => simp [isAStruct]
  | cons p rest ih =>
    obtain ⟨k, v2⟩ := p
    rw [isAStruct]
    constructor
    · intro h
      rw [Bool.and_eq_true] at h
      obtain ⟨h1, h2⟩ := h
      intro q hq
      rcases List.mem_cons.mp hq with hq | hq
      · cases hq
        split at h1
        · exact ⟨_, by assumption, h1⟩
        · exact absurd h1 (by simp)
      · exact ih.mp h2 _ hq
    · intro h
      rw [Bool.and_eq_true]
      constructor
      · obtain ⟨v1, hv1, hv2⟩ := h (k, v2) (by simp)
        split
        · rename_i heq
          rw [hv1] at heq
          cases heq
          exact hv2
        · rename_i heq
          rw [hv1] at heq
          cases heq
      · exact ih.mpr (fun q hq => h q (by simp [hq]))

theorem containsKey_of_mem {k : String} {v : HIRType} {m : List (String × HIRType)}
    (h : (k, v) ∈ m) : containsKey k m = true := by
  induction m with
  | nil => simp at h
  | cons p rest ih =>
    obtain ⟨k', v'⟩ := p
    simp [containsKey, lookup]
    rcases List.mem_cons.mp h with h | h
    · cases h; simp
    · split
      · simp
      · simpa [containsKey] using ih h

theorem lookup_eq_some_of_mem {k : String} {v : HIRType} {m : List (String × HIRType)}
    (hnd : nodupKeys m = true) (h : (k, v) ∈ m) : lookup k m = some v := by
  induction m with
  | nil => simp at h
  | cons p rest ih =>
    obtain ⟨k', v'⟩ := p
    rw [nodupKeys, Bool.and_eq_true] at hnd
    obtain ⟨hnc, hnd⟩ := hnd
    rcases List.mem_cons.mp h with h | h
    · cases h; simp [lookup]
    · rw [lookup]
      split
      · rename_i heq
        subst heq
        exact absurd (containsKey_of_mem h) (by simpa using hnc)
      · exact ih hnd h

theorem lookup_eq_none_of_not_mem {k : String} {m : List (String × HIRType)}
    (h : ∀ v, (k, v) ∉ m) : lookup k m = none := by
  induction m with
  | nil => simp [lookup]
  | cons p rest ih =>
    obtain ⟨k', v'⟩ := p
    rw [lookup]
    split
    · rename_i heq
      subst heq
      exact absurd (by simp : (k', v') ∈ (k', v') :: rest) (h v')
    · exact ih (fun v hv => h v (by simp [hv]))

/-! ## Claim C10 -/

/-- C10: the subtype relation `is_a` is not transitive: `Tuple([]).is_a(Infer)`,
`Infer.is_a(Unreachable)`, but not `Tuple([]).is_a(Unreachable)`. -/
theorem C10_is_a_not_transitive :
    is_a (.Tuple []) .Infer = true ∧ is_a .Infer .Unreachable = true ∧
      is_a (.Tuple []) .Unreachable = false := by
  refine ⟨by simp, by simp, ?_⟩
  simp [is_a]

/-! ## Claim C1 -/

/-- C1 counterexample: `Infer ≠ Unreachable`, yet `Infer.is_a(Unreachable) = true`
(the `Infer`-on-the-left clause precedes the `Unreachable`-on-the-right clause),
refuting "for every `t ≠ Unreachable`, `t.is_a(Unreachable) = false`". -/
theorem C1_counterexample :
    is_a HIRType.Infer HIRType.Unreachable = true ∧ HIRType.Infer ≠ HIRType.Unreachable := by
  refine ⟨by simp, by simp⟩

/-- C1 (amended): `Unreachable` is bottom — `Unreachable.is_a(t) = true` for every
`t`, and `t.is_a(Unreachable) = false` for every `t` other than `Unreachable`
**and `Infer`** (`Infer` satisfies every type, including `Unreachable`). -/
theorem C1_unreachable_bottom (t : HIRType) :
    is_a .Unreachable t = true ∧
      (t ≠ .Unreachable → t ≠ .Infer → is_a t .Unreachable = false) := by
  refine ⟨by simp, fun h1 h2 => is_a_unreachable_right h2 h1⟩

/-- C1 witness: the amended claim applied at `t = Tuple([])`. -/
theorem C1_witness :
    is_a .Unreachable (.Tuple []) = true ∧ is_a (.Tuple []) .Unreachable = false := by
  have h := C1_unreachable_bottom (.Tuple [])
  exact ⟨h.1, h.2 (by simp) (by simp)⟩

/-! ## Claim C9 -/

/-- C9: `StatementReachable::combine` never yields a labelled
`UnreachableByBreak`: every combination that is a break is `UnreachableByBreak(None)`,
even combining two breaks with the same label — so `combine` is not idempotent on
labelled breaks. -/
theorem C9_combine_erases_labels :
    (∀ a b : StatementReachable, ∀ s : String,
        combine a b ≠ .UnreachableByBreak (some s)) ∧
      combine (.UnreachableByBreak (some "l")) (.UnreachableByBreak (some "l")) =
        .UnreachableByBreak none ∧
      StatementReachable.UnreachableByBreak none ≠ .UnreachableByBreak (some "l") := by
  refine ⟨?_, by simp [combine], by simp⟩
  intro a b s
  cases a <;> cases b <;> simp [combine]

end Kirl

namespace Kirl

/-! ## Claim C8 -/

theorem memberTypeList_eq_some_iff : ∀ {l : List HIRType} {name : String} {rs : List HIRType},
    memberTypeList l name = some rs ↔
      List.Forall₂ (fun t r => member_type t name = some r) l rs := by
  intro l
  induction l with
  | nil =>
    intro name rs
    simp only [memberTypeList]
    constructor
    · intro h; cases h; exact List.Forall₂.nil
    · intro h; cases h; rfl
  | cons t ts ih =>
    intro name rs
    rw [memberTypeList]
    constructor
    · intro h
      split at h
      · rename_i r hr
        split at h
        · rename_i rs' hrs'
          cases h
          exact List.Forall₂.cons hr (ih.mp hrs')
        · cases h
      · cases h
    · intro h
      cases h with
      | cons hr hrest =>
        rw [hr, ih.mpr hrest]

theorem memberTypeList_eq_none_iff {l : List HIRType} {name : String} :
    memberTypeList l name = none ↔ ∃ t ∈ l, member_type t name = none := by
  induction l with
  | nil => simp [memberTypeList]
  | cons t ts ih =>
    rw [memberTypeList]
    constructor
    · intro h
      split at h
      · split at h
        · cases h
        · rename_i hrs
          obtain ⟨u, hu, hnone⟩ := ih.mp hrs
          exact ⟨u, by simp [hu], hnone⟩
      · rename_i hnone
        exact ⟨t, by simp, hnone⟩
    · intro ⟨u, hu, hnone⟩
      rcases List.mem_cons.mp hu with hu | hu
      · subst hu
        rw [hnone]
      · split
        · rw [ih.mpr ⟨u, hu, hnone⟩]
        · rfl

/-- C8: `member_type` — `Infer` yields `Infer`; an `AnonymousStruct` yields the
stored field type exactly when present; an `Or` yields the `Or` of the
per-component member types when every component exposes the member, and `none`
when some component does not (witnessed on the spec's two examples); every other
variant yields `none`. -/
theorem C8_member_type :
    (∀ name, member_type .Infer name = some .Infer) ∧
    (∀ m name v, nodupKeys m = true → (name, v) ∈ m →
        member_type (.AnonymousStruct m) name = some v) ∧
    (∀ m name, (∀ v, (name, v) ∉ m) → member_type (.AnonymousStruct m) name = none) ∧
    (∀ l name rs, List.Forall₂ (fun t r => member_type t name = some r) l rs →
        member_type (.Or l) name = some (.Or rs)) ∧
    (∀ l name t, t ∈ l → member_type t name = none → member_type (.Or l) name = none) ∧
    member_type (.Or [.AnonymousStruct [("a", tyX)], .AnonymousStruct [("a", tyY)]]) "a" =
      some (.Or [tyX, tyY]) ∧
    member_type (.Or [.AnonymousStruct [("a", tyX)], .Tuple []]) "a" = none ∧
    (∀ name i p g l t a r,
      member_type .Unreachable name = none ∧
      member_type (.GenericsTypeArgument i) name = none ∧
      member_type (.Named p g) name = none ∧
      member_type (.Tuple l) name = none ∧
      member_type (.Array t) name = none ∧
      member_type (.Function a r) name = none) := by
  refine ⟨?_, ?_, ?_, ?_, ?_, ?_, ?_, ?_⟩
  · intro name; rw [member_type]
  · intro m name v hnd hmem
    rw [member_type]
    exact lookup_eq_some_of_mem hnd hmem
  · intro m name h
    rw [member_type]
    exact lookup_eq_none_of_not_mem h
  · intro l name rs h
    rw [member_type, memberTypeList_eq_some_iff.mpr h]
    rfl
  · intro l name t ht hnone
    rw [member_type, memberTypeList_eq_none_iff.mpr ⟨t, ht, hnone⟩]
    rfl
  · simp [member_type, memberTypeList, lookup]
  · simp [member_type, memberTypeList, lookup]
  · intro name i p g l t a r
    refine ⟨?_, ?_, ?_, ?_, ?_, ?_⟩ <;> simp [member_type]

/-- C8 witness: the theorem applied at concrete inputs discharging each
hypothesis — the struct lookup on `#{a: X}` and the all-components/`none`
propagation on the two `Or` examples. -/
theorem C8_witness :
    member_type (.AnonymousStruct [("a", tyX)]) "a" = some tyX ∧
      member_type (.Or [.Infer, .Infer]) "b" = some (.Or [.Infer, .Infer]) ∧
      member_type (.Or [.Tuple []]) "c" = none := by
  refine ⟨?_, ?_, ?_⟩
  · exact C8_member_type.2.1 [("a", tyX)] "a" tyX (by simp [nodupKeys, containsKey, lookup])
      (by simp)
  · exact C8_member_type.2.2.2.1 [.Infer, .Infer] "b" [.Infer, .Infer]
      (by refine List.Forall₂.cons ?_ (List.Forall₂.cons ?_ List.Forall₂.nil) <;>
        rw [member_type])
  · exact C8_member_type.2.2.2.2.1 [.Tuple []] "c" (.Tuple []) (by simp) (by simp [member_type])

end Kirl

namespace Kirl

/-! ## Claim C6 -/

theorem apply_eq_spec :
    (∀ t : HIRType, ∀ args,
        apply_generics_type_argument t args =
          if hasOOB t args.length = true then none else some (subst t args)) ∧
    (∀ l : List HIRType, ∀ args,
        applyL l args = if hasOOBL l args.length = true then none else some (substL l args)) ∧
    (∀ m : List (String × HIRType), ∀ args,
        applyM m args = if hasOOBM m args.length = true then none else some (substM m args)) := by
  have main : ∀ n,
      (∀ t : HIRType, sizeOf t ≤ n → ∀ args,
        apply_generics_type_argument t args =
          if hasOOB t args.length = true then none else some (subst t args)) ∧
      (∀ l : List HIRType, sizeOf l ≤ n → ∀ args,
        applyL l args = if hasOOBL l args.length = true then none else some (substL l args)) ∧
      (∀ m : List (String × HIRType), sizeOf m ≤ n → ∀ args,
        applyM m args = if hasOOBM m args.length = true then none else some (substM m args)) := by
    intro n
    induction n using Nat.strong_induction_on with
    | _ n ih =>
      refine ⟨?_, ?_, ?_⟩
      · intro t hn args
        cases t with
        | Infer => simp [apply_generics_type_argument, hasOOB, subst]
        | Unreachable => simp [apply_generics_type_argument, hasOOB, subst]
        | GenericsTypeArgument i =>
          rw [apply_generics_type_argument, hasOOB, subst]
          by_cases h : args.length ≤ i
          · simp [h, List.getElem?_eq_none h]
          · push_neg at h
            simp [Nat.not_le.mpr h, List.getElem?_eq_getElem h, List.getD,
              List.getElem?_eq_getElem h]
        | Named p g =>
          have hl := (ih (sizeOf g) (by simp at hn ⊢; omega)).2.1 g (le_refl _) args
          rw [apply_generics_type_argument, hl, hasOOB, subst]
          by_cases h : hasOOBL g args.length = true <;> simp [h]
        | Tuple l =>
          have hl := (ih (sizeOf l) (by simp at hn ⊢; omega)).2.1 l (le_refl _) args
          rw [apply_generics_type_argument, hl, hasOOB, subst]
          by_cases h : hasOOBL l args.length = true <;> simp [h]
        | Array t =>
          have hl := (ih (sizeOf t) (by simp at hn ⊢; omega)).1 t (le_refl _) args
          rw [apply_generics_type_argument, hl, hasOOB, subst]
          by_cases h : hasOOB t args.length = true <;> simp [h]
        | Function a r =>
          have ha := (ih (sizeOf a) (by simp at hn ⊢; omega)).2.1 a (le_refl _) args
          have hr := (ih (sizeOf r) (by simp at hn ⊢; omega)).1 r (le_refl _) args
          rw [apply_generics_type_argument, ha, hr, hasOOB, subst]
          by_cases h1 : hasOOBL a args.length = true <;>
            by_cases h2 : hasOOB r args.length = true <;> simp [h1, h2]
        | AnonymousStruct m =>
          have hm := (ih (sizeOf m) (by simp at hn ⊢; omega)).2.2 m (le_refl _) args
          rw [apply_generics_type_argument, hm, hasOOB, subst]
          by_cases h : hasOOBM m args.length = true <;> simp [h]
        | Or l =>
          have hl := (ih (sizeOf l) (by simp at hn ⊢; omega)).2.1 l (le_refl _) args
          rw [apply_generics_type_argument, hl, hasOOB, subst]
          by_cases h : hasOOBL l args.length = true <;> simp [h]
      · intro l hn args
        cases l with
        | nil => simp [applyL, hasOOBL, substL]
        | cons t ts =>
          have ht := (ih (sizeOf t) (by simp at hn ⊢; omega)).1 t (le_refl _) args
          have hts := (ih (sizeOf ts) (by simp at hn ⊢; omega)).2.1 ts (le_refl _) args
          rw [applyL, ht, hts, hasOOBL, substL]
          by_cases h1 : hasOOB t args.length = true <;>
            by_cases h2 : hasOOBL ts args.length = true <;> simp [h1, h2]
      · intro m hn args
        cases m with
        | nil => simp [applyM, hasOOBM, substM]
        | cons p rest =>
          obtain ⟨k, v⟩ := p
          have hv := (ih (sizeOf v) (by simp at hn ⊢; omega)).1 v (le_refl _) args
          have hrest := (ih (sizeOf rest) (by simp at hn ⊢; omega)).2.2 rest (le_refl _) args
          rw [applyM, hv, hrest, hasOOBM, substM]
          by_cases h1 : hasOOB v args.length = true <;>
            by_cases h2 : hasOOBM rest args.length = true <;> simp [h1, h2]
  exact ⟨fun t => main (sizeOf t) |>.1 t (le_refl _),
    fun l => main (sizeOf l) |>.2.1 l (le_refl _),
    fun m => main (sizeOf m) |>.2.2 m (le_refl _)⟩

/-- C6: `apply_generics_type_argument(t, args)` is `none` exactly when `t`
contains a `GenericsTypeArgument(i)` with `i ≥ |args|`, and otherwise is `some`
of the total substitution `subst` that replaces every `GenericsTypeArgument(i)`
by `args[i]`, recurses through all composite constructors, and leaves `Infer`
and `Unreachable` unchanged. -/
theorem C6_apply_generics :
    (∀ t : HIRType, ∀ args,
        apply_generics_type_argument t args =
          if hasOOB t args.length = true then none else some (subst t args)) ∧
    (∀ args, apply_generics_type_argument .Infer args = some .Infer) ∧
    (∀ args, apply_generics_type_argument .Unreachable args = some .Unreachable) := by
  refine ⟨apply_eq_spec.1, ?_, ?_⟩ <;> intro args <;> rw [apply_generics_type_argument]

end Kirl

namespace Kirl

/-! ## Claim C5 -/

theorem importsOf_append (a b : List KirlTopLevelStatement) :
    importsOf (a ++ b) = importsOf a ++ importsOf b := by
  induction a with
  | nil => simp [importsOf]
  | cons x rest ih =>
    cases x with
    | Statement s =>
      obtain ⟨pos, st⟩ := s
      simp [importsOf, ih]
    | FunctionDefinition f => simp [importsOf, ih]
    | StructDefinition s => simp [importsOf, ih]

theorem collectGo_spec : ∀ (l : List KirlTopLevelStatement)
    (before : List KirlTopLevelStatement) (sts : List KStatement)
    (strs : List (WithImport KStruct)) (fns : List (WithImport KFunction)),
    collectGo l sts strs fns (importsOf before) =
      ⟨sts ++ statementsOf l, strs ++ structsSpecAux before l,
        fns ++ functionsSpecAux before l⟩ := by
  intro l
  induction l with
  | nil => intro before sts strs fns; simp [collectGo, statementsOf, structsSpecAux, functionsSpecAux]
  | cons x rest ih =>
    intro before sts strs fns
    cases x with
    | Statement s =>
      obtain ⟨pos, st⟩ := s
      rw [collectGo]
      have himp : (match st.statement with
          | .Import ip => importsOf before ++ [ip]
          | _ => importsOf before) =
          importsOf (before ++ [KirlTopLevelStatement.Statement (pos, st)]) := by
        rw [importsOf_append]
        cases h : st.statement <;> simp [importsOf, h]
      rw [himp, ih]
      simp [statementsOf, structsSpecAux, functionsSpecAux]
    | FunctionDefinition f =>
      obtain ⟨pos, fd⟩ := f
      rw [collectGo]
      have himp : importsOf before =
          importsOf (before ++ [KirlTopLevelStatement.FunctionDefinition (pos, fd)]) := by
        rw [importsOf_append]; simp [importsOf]
      rw [himp, ih]
      rw [← himp]
      simp [statementsOf, structsSpecAux, functionsSpecAux]
    | StructDefinition s =>
      obtain ⟨pos, sd⟩ := s
      rw [collectGo]
      have himp : importsOf before =
          importsOf (before ++ [KirlTopLevelStatement.StructDefinition (pos, sd)]) := by
        rw [importsOf_append]; simp [importsOf]
      rw [himp, ih]
      rw [← himp]
      simp [statementsOf, structsSpecAux, functionsSpecAux]

/-- C5: the top-level splitter retains every statement of the input in source
order (import statements included), and attaches to each emitted function and
struct definition `ImportPath::List` of exactly the import directives that
appeared textually before it, accumulated over the whole walk and never reset
(`functionsSpecAux`/`structsSpecAux` pair each definition with the imports of
the prefix preceding it). -/
theorem C5_collect_top_level :
    ∀ l : List KirlTopLevelStatement,
      (collect_top_level_item_with_imports l).statements = statementsOf l ∧
      (collect_top_level_item_with_imports l).functions = functionsSpecAux [] l ∧
      (collect_top_level_item_with_imports l).structs = structsSpecAux [] l := by
  intro l
  have h : collect_top_level_item_with_imports l =
      ⟨statementsOf l, structsSpecAux [] l, functionsSpecAux [] l⟩ := by
    have := collectGo_spec l [] [] [] []
    simpa [collect_top_level_item_with_imports, importsOf] using this
  rw [h]
  exact ⟨rfl, rfl, rfl⟩

end Kirl

namespace Kirl

/-! ## Claim C3 -/

theorem is_a_tuple_tuple (l1 l2 : List HIRType) :
    is_a (.Tuple l1) (.Tuple l2) = (decide (l2.length ≤ l1.length) && isAZip l1 l2) := by
  simp [is_a]

theorem beq_tuple_or (items ts : List HIRType) : beq (.Tuple items) (.Or ts) = false := by
  simp [beq]

theorem intersect_to_tuple_or (items ts : List HIRType) :
    intersect_to (.Tuple items) (.Or ts) =
      .Tuple (((tupleOrRows items ts).foldl pushRow
        (List.replicate items.length [])).map .Or) := by
  rw [intersect_to, beq_tuple_or]
  simp

theorem tupleOrRows_eq_map (items : List HIRType) : ∀ ts,
    tupleOrRows items ts = (keptTuples items ts).map (fun cits => intersectZip items cits) := by
  intro ts
  induction ts with
  | nil => simp [tupleOrRows, keptTuples]
  | cons c rest ih =>
    cases c with
    | Tuple cits =>
      simp only [tupleOrRows, keptTuples]
      by_cases h : is_a (.Tuple cits) (.Tuple items) = true
      · simp [h, ih]
      · simp only [Bool.not_eq_true] at h
        simp [h, ih]
    | Infer => simp only [tupleOrRows, keptTuples]; exact ih
    | Unreachable => simp only [tupleOrRows, keptTuples]; exact ih
    | GenericsTypeArgument i => simp only [tupleOrRows, keptTuples]; exact ih
    | Named p g => simp only [tupleOrRows, keptTuples]; exact ih
    | Array t => simp only [tupleOrRows, keptTuples]; exact ih
    | Function a r => simp only [tupleOrRows, keptTuples]; exact ih
    | AnonymousStruct m => simp only [tupleOrRows, keptTuples]; exact ih
    | Or l => simp only [tupleOrRows, keptTuples]; exact ih

theorem keptTuples_length (items : List HIRType) : ∀ ts, ∀ cits ∈ keptTuples items ts,
    items.length ≤ cits.length := by
  intro ts
  induction ts with
  | nil => simp [keptTuples]
  | cons c rest ih =>
    cases c with
    | Tuple cits' =>
      simp only [keptTuples]
      by_cases h : is_a (.Tuple cits') (.Tuple items) = true
      · simp only [h, if_true]
        intro cits hc
        rcases List.mem_cons.mp hc with hc | hc
        · subst hc
          rw [is_a_tuple_tuple, Bool.and_eq_true] at h
          exact of_decide_eq_true h.1
        · exact ih cits hc
      · simp only [Bool.not_eq_true] at h
        simp only [h, Bool.false_eq_true, if_false]
        exact ih
    | Infer => simp only [keptTuples]; exact ih
    | Unreachable => simp only [keptTuples]; exact ih
    | GenericsTypeArgument i => simp only [keptTuples]; exact ih
    | Named p g => simp only [keptTuples]; exact ih
    | Array t => simp only [keptTuples]; exact ih
    | Function a r => simp only [keptTuples]; exact ih
    | AnonymousStruct m => simp only [keptTuples]; exact ih
    | Or l => simp only [keptTuples]; exact ih

theorem intersectZip_length : ∀ l1 l2 : List HIRType,
    (intersectZip l1 l2).length = min l1.length l2.length := by
  intro l1
  induction l1 with
  | nil => intro l2; cases l2 <;> simp [intersectZip]
  | cons t ts ih =>
    intro l2
    cases l2 with
    | nil => simp [intersectZip]
    | cons u us => simp [intersectZip, ih]; omega

theorem intersectZip_getD : ∀ (l1 l2 : List HIRType) (i : Nat), i < l1.length → i < l2.length →
    (intersectZip l1 l2).getD i .Infer =
      intersect_to (l1.getD i .Infer) (l2.getD i .Infer) := by
  intro l1
  induction l1 with
  | nil => intro l2 i h1 h2; simp at h1
  | cons t ts ih =>
    intro l2 i h1 h2
    cases l2 with
    | nil => simp at h2
    | cons u us =>
      cases i with
      | zero => simp [intersectZip]
      | succ j =>
        simp only [intersectZip, List.getD_cons_succ]
        exact ih us j (by simpa using h1) (by simpa using h2)

theorem pushRow_length (acc : List (List HIRType)) (row : List HIRType) :
    (pushRow acc row).length = min acc.length row.length := by
  simp [pushRow]

theorem pushRow_getD : ∀ (acc : List (List HIRType)) (row : List HIRType) (i : Nat),
    i < acc.length → i < row.length →
    (pushRow acc row).getD i [] = acc.getD i [] ++ [row.getD i .Infer] := by
  intro acc
  induction acc with
  | nil => intro row i h1 h2; simp at h1
  | cons a as ih =>
    intro row i h1 h2
    cases row with
    | nil => simp at h2
    | cons r rs =>
      cases i with
      | zero => simp [pushRow]
      | succ j =>
        simp only [pushRow, List.zipWith_cons_cons, List.getD_cons_succ]
        exact ih rs j (by simpa using h1) (by simpa using h2)

theorem foldRows : ∀ (rows : List (List HIRType)) (acc : List (List HIRType)),
    (∀ r ∈ rows, acc.length ≤ r.length) →
    (rows.foldl pushRow acc).length = acc.length ∧
    ∀ i, i < acc.length →
      (rows.foldl pushRow acc).getD i [] =
        acc.getD i [] ++ rows.map (fun r => r.getD i .Infer) := by
  intro rows
  induction rows with
  | nil => intro acc h; simp
  | cons r rs ih =>
    intro acc h
    have hr : acc.length ≤ r.length := h r (by simp)
    have hlen : (pushRow acc r).length = acc.length := by
      rw [pushRow_length]; omega
    have hrs : ∀ r' ∈ rs, (pushRow acc r).length ≤ r'.length := by
      intro r' hr'
      rw [hlen]
      exact h r' (by simp [hr'])
    obtain ⟨ihlen, ihget⟩ := ih (pushRow acc r) hrs
    constructor
    · simpa [hlen] using ihlen
    · intro i hi
      rw [List.foldl_cons, ihget i (by omega : i < (pushRow acc r).length),
        pushRow_getD acc r i hi (by omega)]
      simp

theorem C3_general (items ts : List HIRType) :
    ∃ cols : List (List HIRType),
      intersect_to (.Tuple items) (.Or ts) = .Tuple (cols.map .Or) ∧
      cols.length = items.length ∧
      ∀ i, i < items.length →
        cols.getD i [] = (keptTuples items ts).map
          (fun cits => intersect_to (items.getD i .Infer) (cits.getD i .Infer)) := by
  refine ⟨(tupleOrRows items ts).foldl pushRow (List.replicate items.length []), ?_, ?_, ?_⟩
  · exact intersect_to_tuple_or items ts
  all_goals {
    have hrows : ∀ r ∈ tupleOrRows items ts, (List.replicate items.length
        ([] : List HIRType)).length ≤ r.length := by
      intro r hr
      rw [tupleOrRows_eq_map] at hr
      obtain ⟨cits, hcits, rfl⟩ := List.mem_map.mp hr
      rw [intersectZip_length, List.length_replicate]
      have := keptTuples_length items ts cits hcits
      omega
    obtain ⟨hlen, hget⟩ := foldRows (tupleOrRows items ts) _ hrows
    first
    | (rw [hlen]; exact List.length_replicate _ _)
    | (intro i hi
       rw [hget i (by simpa using hi)]
       rw [List.getD_eq_getElem?_getD]
       simp only [List.getElem?_replicate]
       rw [if_pos hi]
       simp only [Option.getD_some, List.nil_append]
       rw [tupleOrRows_eq_map, List.map_map]
       apply List.map_congr_left
       intro cits hcits
       simp only [Function.comp]
       exact intersectZip_getD items cits i hi
         (by have := keptTuples_length items ts cits hcits; omega))
  }

/-- C3: for `self = Tuple(items)` and `target = Or(ts)`, `intersect_to` keeps
exactly the `Or` components that are tuples `tc` with `tc.is_a(self)`
(`keptTuples`), and returns a tuple of the same length as `self` whose `i`-th
component is the `Or` of the position-`i` intersections over those kept
candidates (an empty `Or` when none are kept); in particular the spec's example
`Tuple([Infer, Infer]).intersect_to(Or([Tuple([A, A]), Tuple([B, B, C]),
Tuple([C])])) = Tuple([Or([A, B]), Or([A, B])])`. -/
theorem C3_intersect_tuple_or_claim :
    (∀ items ts : List HIRType,
      ∃ cols : List (List HIRType),
        intersect_to (.Tuple items) (.Or ts) = .Tuple (cols.map .Or) ∧
        cols.length = items.length ∧
        ∀ i, i < items.length →
          cols.getD i [] = (keptTuples items ts).map
            (fun cits => intersect_to (items.getD i .Infer) (cits.getD i .Infer))) ∧
    intersect_to (.Tuple [.Infer, .Infer])
        (.Or [.Tuple [tyA, tyA], .Tuple [tyB, tyB, tyC], .Tuple [tyC]]) =
      .Tuple [.Or [tyA, tyB], .Or [tyA, tyB]] := by
  refine ⟨C3_general, ?_⟩
  simp [intersect_to, tyA, tyB, tyC, beq, beqL, tupleOrRows, is_a, isAZip, intersectZip,
    pushRow, List.replicate]

/-- C3 witness: the per-position characterization applied at the spec's example
(position 0 of the kept candidates), discharging the `i < length` hypothesis. -/
theorem C3_witness :
    ∃ cols : List (List HIRType),
      intersect_to (.Tuple [.Infer, .Infer])
          (.Or [.Tuple [tyA, tyA], .Tuple [tyB, tyB, tyC], .Tuple [tyC]]) =
        .Tuple (cols.map .Or) ∧
      cols.length = 2 ∧
      cols.getD 0 [] =
        (keptTuples [.Infer, .Infer] [.Tuple [tyA, tyA], .Tuple [tyB, tyB, tyC], .Tuple [tyC]]).map
          (fun cits => intersect_to ((([.Infer, .Infer] : List HIRType)).getD 0 .Infer)
            (cits.getD 0 .Infer)) := by
  obtain ⟨cols, h1, h2, h3⟩ :=
    C3_intersect_tuple_or_claim.1 [.Infer, .Infer]
      [.Tuple [tyA, tyA], .Tuple [tyB, tyB, tyC], .Tuple [tyC]]
  exact ⟨cols, h1, h2, h3 0 (by simp)⟩

end Kirl

namespace Kirl

/-! ## Claim C4 -/

theorem containsKey_iff_mem_keys {n : String} {m : List (String × HIRType)} :
    containsKey n m = true ↔ n ∈ m.map Prod.fst := by
  induction m with
  | nil => simp [containsKey, lookup]
  | cons p rest ih =>
    obtain ⟨k, v⟩ := p
    by_cases h : k = n
    · subst h
      simp [containsKey, lookup]
    · simp only [containsKey, lookup, if_neg h]
      simpa [h, Ne.symm h] using ih

theorem mem_keys_insertSorted {n k : String} {v : HIRType} : ∀ {m : List (String × HIRType)},
    n ∈ (insertSorted k v m).map Prod.fst ↔ n = k ∨ n ∈ m.map Prod.fst := by
  intro m
  induction m with
  | nil => simp [insertSorted]
  | cons p rest ih =>
    obtain ⟨k', v'⟩ := p
    rw [insertSorted]
    split
    · simp
    · simp only [List.map_cons, List.mem_cons, ih]
      tauto

theorem contains_iff_mem {n : String} {l : List String} : l.contains n = true ↔ n ∈ l := by
  simp [List.contains, List.elem_iff]

theorem dupFromT_congr : ∀ (l : List (String × SType)) (seen1 seen2 : List String),
    (∀ x, x ∈ seen1 ↔ x ∈ seen2) → dupFromT seen1 l = dupFromT seen2 l := by
  intro l
  induction l with
  | nil => intro seen1 seen2 h; simp [dupFromT]
  | cons p rest ih =>
    intro seen1 seen2 h
    obtain ⟨name, ty⟩ := p
    rw [dupFromT, dupFromT]
    have hc : seen1.contains name = seen2.contains name := by
      by_cases hm : name ∈ seen1
      · rw [contains_iff_mem.mpr hm, contains_iff_mem.mpr ((h name).mp hm)]
      · have hm2 : name ∉ seen2 := fun hx => hm ((h name).mpr hx)
        rw [Bool.eq_iff_iff]
        simp [contains_iff_mem, hm, hm2]
    rw [hc, ih (name :: seen1) (name :: seen2) (by intro x; simp [h x])]

theorem dupFromP_congr : ∀ (l : List (String × Pattern)) (seen1 seen2 : List String),
    (∀ x, x ∈ seen1 ↔ x ∈ seen2) → dupFromP seen1 l = dupFromP seen2 l := by
  intro l
  induction l with
  | nil => intro seen1 seen2 h; simp [dupFromP]
  | cons p rest ih =>
    intro seen1 seen2 h
    obtain ⟨name, pat⟩ := p
    rw [dupFromP, dupFromP]
    have hc : seen1.contains name = seen2.contains name := by
      by_cases hm : name ∈ seen1
      · rw [contains_iff_mem.mpr hm, contains_iff_mem.mpr ((h name).mp hm)]
      · have hm2 : name ∉ seen2 := fun hx => hm ((h name).mpr hx)
        rw [Bool.eq_iff_iff]
        simp [contains_iff_mem, hm, hm2]
    rw [hc, ih (name :: seen1) (name :: seen2) (by intro x; simp [h x])]

theorem not_mem_of_contains_false {n : String} {l : List String}
    (h : l.contains n = false) : n ∉ l := by
  intro hm
  rw [contains_iff_mem.mpr hm] at h
  cases h

theorem contains_false_of_not_mem {n : String} {l : List String}
    (h : n ∉ l) : l.contains n = false := by
  rw [← Bool.not_eq_true, contains_iff_mem]
  exact h

theorem dupFromT_false_iff : ∀ (l : List (String × SType)) (seen : List String),
    dupFromT seen l = false ↔
      ((∀ x ∈ l.map Prod.fst, x ∉ seen) ∧ hasDupKeys (l.map Prod.fst) = false ∧
        typeHasDupM l = false) := by
  intro l
  induction l with
  | nil => intro seen; simp [dupFromT, hasDupKeys, typeHasDupM]
  | cons p rest ih =>
    intro seen
    obtain ⟨name, ty⟩ := p
    rw [dupFromT]
    simp only [Bool.or_eq_false_iff]
    rw [ih (name :: seen)]
    simp only [List.map_cons, hasDupKeys, typeHasDupM, Bool.or_eq_false_iff]
    constructor
    · rintro ⟨⟨hs, hty⟩, hall, hdup, hrest⟩
      have hnm : name ∉ seen := not_mem_of_contains_false hs
      refine ⟨?_, ⟨?_, hdup⟩, hty, hrest⟩
      · intro x hx
        rcases List.mem_cons.mp hx with rfl | hx2
        · exact hnm
        · exact fun hm => hall x hx2 (List.mem_cons_of_mem _ hm)
      · apply contains_false_of_not_mem
        intro hm
        exact hall name hm (List.mem_cons_self _ _)
    · rintro ⟨hall, ⟨hnc, hdup⟩, hty, hrest⟩
      have hs : seen.contains name = false :=
        contains_false_of_not_mem (hall name (List.mem_cons_self _ _))
      refine ⟨⟨hs, hty⟩, ?_, hdup, hrest⟩
      intro x hx
      have hne : x ≠ name := by
        intro he
        subst he
        exact (not_mem_of_contains_false hnc) hx
      have hxs : x ∉ seen := hall x (List.mem_cons_of_mem _ hx)
      simp [List.mem_cons, hne, hxs]

theorem dupFromP_false_iff : ∀ (l : List (String × Pattern)) (seen : List String),
    dupFromP seen l = false ↔
      ((∀ x ∈ l.map Prod.fst, x ∉ seen) ∧ hasDupKeys (l.map Prod.fst) = false ∧
        patHasDupTravM l = false) := by
  intro l
  induction l with
  | nil => intro seen; simp [dupFromP, hasDupKeys, patHasDupTravM]
  | cons p rest ih =>
    intro seen
    obtain ⟨name, pat⟩ := p
    rw [dupFromP]
    simp only [Bool.or_eq_false_iff]
    rw [ih (name :: seen)]
    simp only [List.map_cons, hasDupKeys, patHasDupTravM, Bool.or_eq_false_iff]
    constructor
    · rintro ⟨⟨hs, hty⟩, hall, hdup, hrest⟩
      have hnm : name ∉ seen := not_mem_of_contains_false hs
      refine ⟨?_, ⟨?_, hdup⟩, hty, hrest⟩
      · intro x hx
        rcases List.mem_cons.mp hx with rfl | hx2
        · exact hnm
        · exact fun hm => hall x hx2 (List.mem_cons_of_mem _ hm)
      · apply contains_false_of_not_mem
        intro hm
        exact hall name hm (List.mem_cons_self _ _)
    · rintro ⟨hall, ⟨hnc, hdup⟩, hty, hrest⟩
      have hs : seen.contains name = false :=
        contains_false_of_not_mem (hall name (List.mem_cons_self _ _))
      refine ⟨⟨hs, hty⟩, ?_, hdup, hrest⟩
      intro x hx
      have hne : x ≠ name := by
        intro he
        subst he
        exact (not_mem_of_contains_false hnc) hx
      have hxs : x ∉ seen := hall x (List.mem_cons_of_mem _ hx)
      simp [List.mem_cons, hne, hxs]

end Kirl

namespace Kirl

theorem keys_insertSorted_iff {x name : String} {v : HIRType} {acc : List (String × HIRType)} :
    x ∈ (insertSorted name v acc).map Prod.fst ↔ x ∈ name :: acc.map Prod.fst := by
  rw [mem_keys_insertSorted, List.mem_cons]

theorem conv_type_ok :
    (∀ t : SType, ((∃ v, tryFromType t = .ok v) ↔ typeHasDup t = false)) ∧
    (∀ l : List SType, ((∃ vs, tryFromTypeList l = .ok vs) ↔ typeHasDupL l = false)) ∧
    (∀ ms : List (String × SType), ∀ acc,
      ((∃ r, tryFromTypeMembers acc ms = .ok r) ↔ dupFromT (acc.map Prod.fst) ms = false)) := by
  have main : ∀ n,
      (∀ t : SType, sizeOf t ≤ n → ((∃ v, tryFromType t = .ok v) ↔ typeHasDup t = false)) ∧
      (∀ l : List SType, sizeOf l ≤ n →
        ((∃ vs, tryFromTypeList l = .ok vs) ↔ typeHasDupL l = false)) ∧
      (∀ ms : List (String × SType), sizeOf ms ≤ n → ∀ acc,
        ((∃ r, tryFromTypeMembers acc ms = .ok r) ↔
          dupFromT (acc.map Prod.fst) ms = false)) := by
    intro n
    induction n using Nat.strong_induction_on with
    | _ n ih =>
      refine ⟨?_, ?_, ?_⟩
      · intro t hn
        cases t with
        | None => simp [tryFromType, typeHasDup]
        | Unreachable pos => simp [tryFromType, typeHasDup]
        | NamedType p g =>
          have hl := (ih (sizeOf g) (by simp at hn ⊢; omega)).2.1 g (le_refl _)
          rw [tryFromType, typeHasDup, ← hl]
          cases h : tryFromTypeList g <;> simp [h]
        | Tuple pos l =>
          have hl := (ih (sizeOf l) (by simp at hn ⊢; omega)).2.1 l (le_refl _)
          rw [tryFromType, typeHasDup, ← hl]
          cases h : tryFromTypeList l <;> simp [h]
        | Array pos t =>
          have hl := (ih (sizeOf t) (by simp at hn ⊢; omega)).1 t (le_refl _)
          rw [tryFromType, typeHasDup, ← hl]
          cases h : tryFromType t <;> simp [h]
        | Function a r =>
          have ha := (ih (sizeOf a) (by simp at hn ⊢; omega)).2.1 a (le_refl _)
          have hr := (ih (sizeOf r) (by simp at hn ⊢; omega)).1 r (le_refl _)
          rw [tryFromType, typeHasDup]
          cases h1 : tryFromTypeList a <;> cases h2 : tryFromType r <;>
            simp_all [Bool.or_eq_false_iff]
        | AnonymousStruct ms =>
          have hm := (ih (sizeOf ms) (by simp at hn ⊢; omega)).2.2 ms (le_refl _) []
          simp only [List.map_nil] at hm
          rw [tryFromType, typeHasDup]
          cases h : tryFromTypeMembers [] ms with
          | ok r =>
            have hdf : dupFromT [] ms = false := hm.mp ⟨r, h⟩
            obtain ⟨-, h4, h5⟩ := (dupFromT_false_iff ms []).mp hdf
            simp [h4, h5]
          | error e =>
            have hdt : dupFromT [] ms = true := by
              rcases Bool.eq_false_or_eq_true (dupFromT [] ms) with ht | hf
              · exact ht
              · obtain ⟨r, hr⟩ := hm.mpr hf
                rw [h] at hr
                cases hr
            rcases Bool.eq_false_or_eq_true
                (hasDupKeys (ms.map Prod.fst) || typeHasDupM ms) with ht | hf
            · simp [ht]
            · exfalso
              rw [Bool.or_eq_false_iff] at hf
              have : dupFromT [] ms = false :=
                (dupFromT_false_iff ms []).mpr ⟨by simp, hf.1, hf.2⟩
              rw [this] at hdt
              cases hdt
        | Or pos l =>
          have hl := (ih (sizeOf l) (by simp at hn ⊢; omega)).2.1 l (le_refl _)
          rw [tryFromType, typeHasDup, ← hl]
          cases h : tryFromTypeList l <;> simp [h]
      · intro l hn
        cases l with
        | nil => simp [tryFromTypeList, typeHasDupL]
        | cons t ts =>
          have ht := (ih (sizeOf t) (by simp at hn ⊢; omega)).1 t (le_refl _)
          have hts := (ih (sizeOf ts) (by simp at hn ⊢; omega)).2.1 ts (le_refl _)
          rw [tryFromTypeList, typeHasDupL]
          cases h1 : tryFromType t <;> cases h2 : tryFromTypeList ts <;>
            simp_all [Bool.or_eq_false_iff]
      · intro ms hn
        cases ms with
        | nil => intro acc; simp [tryFromTypeMembers, dupFromT]
        | cons p rest =>
          obtain ⟨name, ty⟩ := p
          intro acc
          have hty := (ih (sizeOf ty) (by simp at hn ⊢; omega)).1 ty (le_refl _)
          rw [tryFromTypeMembers, dupFromT]
          by_cases hck : containsKey name acc = true
          · have hc : (acc.map Prod.fst).contains name = true :=
              contains_iff_mem.mpr (containsKey_iff_mem_keys.mp hck)
            rw [if_pos hck, hc]
            simp
          · have hc : (acc.map Prod.fst).contains name = false := by
              rw [← Bool.not_eq_true, contains_iff_mem]
              intro hm
              exact hck (containsKey_iff_mem_keys.mpr hm)
            simp only [hck, Bool.false_eq_true, if_false, hc, Bool.false_or]
            cases h1 : tryFromType ty with
            | error e =>
              have : typeHasDup ty = true := by
                rcases Bool.eq_false_or_eq_true (typeHasDup ty) with ht | hf
                · exact ht
                · obtain ⟨v, hv⟩ := hty.mpr hf
                  rw [h1] at hv
                  cases hv
              simp [this]
            | ok v =>
              have hdty : typeHasDup ty = false := hty.mp ⟨v, h1⟩
              have hrest := (ih (sizeOf rest) (by simp at hn ⊢; omega)).2.2 rest
                (le_refl _) (insertSorted name v acc)
              rw [dupFromT_congr rest ((insertSorted name v acc).map Prod.fst)
                (name :: acc.map Prod.fst) (fun x => keys_insertSorted_iff)] at hrest
              simp [hdty, hrest]
  exact ⟨fun t => (main (sizeOf t)).1 t (le_refl _),
    fun l => (main (sizeOf l)).2.1 l (le_refl _),
    fun ms => (main (sizeOf ms)).2.2 ms (le_refl _)⟩

end Kirl

namespace Kirl

theorem conv_type_err :
    (∀ t : SType, ∀ m, tryFromType t = .error (.DuplicatedMember m) →
      typeUsesTwice m t = true) ∧
    (∀ l : List SType, ∀ m, tryFromTypeList l = .error (.DuplicatedMember m) →
      typeUsesTwiceL m l = true) ∧
    (∀ ms : List (String × SType), ∀ acc m,
      tryFromTypeMembers acc ms = .error (.DuplicatedMember m) →
      (m ∈ acc.map Prod.fst ∧ m ∈ ms.map Prod.fst) ∨
        2 ≤ (ms.map Prod.fst).count m ∨ typeUsesTwiceM m ms = true) := by
  have main : ∀ n,
      (∀ t : SType, sizeOf t ≤ n → ∀ m, tryFromType t = .error (.DuplicatedMember m) →
        typeUsesTwice m t = true) ∧
      (∀ l : List SType, sizeOf l ≤ n → ∀ m,
        tryFromTypeList l = .error (.DuplicatedMember m) → typeUsesTwiceL m l = true) ∧
      (∀ ms : List (String × SType), sizeOf ms ≤ n → ∀ acc m,
        tryFromTypeMembers acc ms = .error (.DuplicatedMember m) →
        (m ∈ acc.map Prod.fst ∧ m ∈ ms.map Prod.fst) ∨
          2 ≤ (ms.map Prod.fst).count m ∨ typeUsesTwiceM m ms = true) := by
    intro n
    induction n using Nat.strong_induction_on with
    | _ n ih =>
      refine ⟨?_, ?_, ?_⟩
      · intro t hn m herr
        cases t with
        | None => rw [tryFromType] at herr; cases herr
        | Unreachable pos => rw [tryFromType] at herr; cases herr
        | NamedType p g =>
          rw [tryFromType] at herr
          rw [typeUsesTwice]
          cases h : tryFromTypeList g with
          | ok gs => rw [h] at herr; cases herr
          | error e =>
            rw [h] at herr
            cases herr
            exact (ih (sizeOf g) (by simp at hn; omega)).2.1 g (le_refl _) m h
        | Tuple pos l =>
          rw [tryFromType] at herr
          rw [typeUsesTwice]
          cases h : tryFromTypeList l with
          | ok gs => rw [h] at herr; cases herr
          | error e =>
            rw [h] at herr
            cases herr
            exact (ih (sizeOf l) (by simp at hn; omega)).2.1 l (le_refl _) m h
        | Array pos t =>
          rw [tryFromType] at herr
          rw [typeUsesTwice]
          cases h : tryFromType t with
          | ok gs => rw [h] at herr; cases herr
          | error e =>
            rw [h] at herr
            cases herr
            exact (ih (sizeOf t) (by simp at hn; omega)).1 t (le_refl _) m h
        | Function a r =>
          rw [tryFromType] at herr
          rw [typeUsesTwice]
          cases h1 : tryFromTypeList a with
          | ok args =>
            rw [h1] at herr
            cases h2 : tryFromType r with
            | ok rr => rw [h2] at herr; cases herr
            | error e =>
              rw [h2] at herr
              cases herr
              rw [(ih (sizeOf r) (by simp at hn; omega)).1 r (le_refl _) m h2]
              simp
          | error e =>
            rw [h1] at herr
            cases herr
            rw [(ih (sizeOf a) (by simp at hn; omega)).2.1 a (le_refl _) m h1]
            simp
        | AnonymousStruct ms =>
          rw [tryFromType] at herr
          rw [typeUsesTwice]
          cases h : tryFromTypeMembers [] ms with
          | ok r => rw [h] at herr; cases herr
          | error e =>
            rw [h] at herr
            cases herr
            rcases (ih (sizeOf ms) (by simp at hn; omega)).2.2 ms (le_refl _) [] m h with
              ⟨hacc, _⟩ | hcnt | huse
            · simp at hacc
            · simp [hcnt]
            · simp [huse]
        | Or pos l =>
          rw [tryFromType] at herr
          rw [typeUsesTwice]
          cases h : tryFromTypeList l with
          | ok gs => rw [h] at herr; cases herr
          | error e =>
            rw [h] at herr
            cases herr
            exact (ih (sizeOf l) (by simp at hn; omega)).2.1 l (le_refl _) m h
      · intro l hn m herr
        cases l with
        | nil => rw [tryFromTypeList] at herr; cases herr
        | cons t ts =>
          rw [tryFromTypeList] at herr
          rw [typeUsesTwiceL]
          cases h1 : tryFromType t with
          | ok v =>
            rw [h1] at herr
            cases h2 : tryFromTypeList ts with
            | ok vs => rw [h2] at herr; cases herr
            | error e =>
              rw [h2] at herr
              cases herr
              rw [(ih (sizeOf ts) (by simp at hn; omega)).2.1 ts (le_refl _) m h2]
              simp
          | error e =>
            rw [h1] at herr
            cases herr
            rw [(ih (sizeOf t) (by simp at hn; omega)).1 t (le_refl _) m h1]
            simp
      · intro ms hn acc m herr
        cases ms with
        | nil => rw [tryFromTypeMembers] at herr; cases herr
        | cons p rest =>
          obtain ⟨name, ty⟩ := p
          rw [tryFromTypeMembers] at herr
          by_cases hck : containsKey name acc = true
          · rw [if_pos hck] at herr
            cases herr
            exact .inl ⟨containsKey_iff_mem_keys.mp hck, by simp⟩
          · rw [if_neg hck] at herr
            cases h1 : tryFromType ty with
            | error e =>
              rw [h1] at herr
              cases herr
              right; right
              rw [typeUsesTwiceM,
                (ih (sizeOf ty) (by simp at hn; omega)).1 ty (le_refl _) m h1]
              simp
            | ok v =>
              rw [h1] at herr
              rcases (ih (sizeOf rest) (by simp at hn; omega)).2.2 rest (le_refl _)
                  (insertSorted name v acc) m herr with ⟨hacc, hrest⟩ | hcnt | huse
              · rcases List.mem_cons.mp (keys_insertSorted_iff.mp hacc) with he | hacc2
                · subst he
                  right; left
                  simp only [List.map_cons, List.count_cons_self]
                  have : 1 ≤ (rest.map Prod.fst).count m := List.count_pos_iff.mpr hrest
                  omega
                · exact .inl ⟨hacc2, by simp [hrest]⟩
              · right; left
                simp only [List.map_cons]
                rw [List.count_cons]
                omega
              · right; right
                rw [typeUsesTwiceM, huse]
                simp
  exact ⟨fun t => (main (sizeOf t)).1 t (le_refl _),
    fun l => (main (sizeOf l)).2.1 l (le_refl _),
    fun ms => (main (sizeOf ms)).2.2 ms (le_refl _)⟩

end Kirl

namespace Kirl

theorem conv_pat_ok :
    (∀ p : Pattern, ((∃ v, tryFromPattern p = .ok v) ↔ patHasDupTrav p = false)) ∧
    (∀ l : List Pattern, ((∃ vs, tryFromPatternList l = .ok vs) ↔ patHasDupTravL l = false)) ∧
    (∀ ms : List (String × Pattern), ∀ acc,
      ((∃ r, tryFromPatternMembers acc ms = .ok r) ↔
        dupFromP (acc.map Prod.fst) ms = false)) := by
  have main : ∀ n,
      (∀ p : Pattern, sizeOf p ≤ n → ((∃ v, tryFromPattern p = .ok v) ↔ patHasDupTrav p = false)) ∧
      (∀ l : List Pattern, sizeOf l ≤ n →
        ((∃ vs, tryFromPatternList l = .ok vs) ↔ patHasDupTravL l = false)) ∧
      (∀ ms : List (String × Pattern), sizeOf ms ≤ n → ∀ acc,
        ((∃ r, tryFromPatternMembers acc ms = .ok r) ↔
          dupFromP (acc.map Prod.fst) ms = false)) := by
    intro n
    induction n using Nat.strong_induction_on with
    | _ n ih =>
      refine ⟨?_, ?_, ?_⟩
      · intro p hn
        cases p with
        | Variable name => simp [tryFromPattern, patHasDupTrav]
        | Tuple l =>
          have hl := (ih (sizeOf l) (by simp at hn; omega)).2.1 l (le_refl _)
          rw [tryFromPattern, patHasDupTrav, ← hl]
          cases h : tryFromPatternList l <;> simp [h]
        | Struct sn members =>
          cases sn with
          | Named path g =>
            rw [tryFromPattern, patHasDupTrav, ← conv_type_ok.2.1 g]
            cases h : tryFromTypeList g <;> simp [h]
          | Anonymous =>
            have hm := (ih (sizeOf members) (by simp at hn; omega)).2.2 members (le_refl _) []
            simp only [List.map_nil] at hm
            rw [tryFromPattern, patHasDupTrav]
            cases h : tryFromPatternMembers [] members with
            | ok r =>
              have hdf : dupFromP [] members = false := hm.mp ⟨r, h⟩
              obtain ⟨-, h4, h5⟩ := (dupFromP_false_iff members []).mp hdf
              simp [h4, h5]
            | error e =>
              have hdt : dupFromP [] members = true := by
                rcases Bool.eq_false_or_eq_true (dupFromP [] members) with ht | hf
                · exact ht
                · obtain ⟨r, hr⟩ := hm.mpr hf
                  rw [h] at hr
                  cases hr
              rcases Bool.eq_false_or_eq_true
                  (hasDupKeys (members.map Prod.fst) || patHasDupTravM members) with ht | hf
              · simp [ht]
              · exfalso
                rw [Bool.or_eq_false_iff] at hf
                have : dupFromP [] members = false :=
                  (dupFromP_false_iff members []).mpr ⟨by simp, hf.1, hf.2⟩
                rw [this] at hdt
                cases hdt
      · intro l hn
        cases l with
        | nil => simp [tryFromPatternList, patHasDupTravL]
        | cons p ps =>
          have hp := (ih (sizeOf p) (by simp at hn; omega)).1 p (le_refl _)
          have hps := (ih (sizeOf ps) (by simp at hn; omega)).2.1 ps (le_refl _)
          rw [tryFromPatternList, patHasDupTravL]
          cases h1 : tryFromPattern p <;> cases h2 : tryFromPatternList ps <;>
            simp_all [Bool.or_eq_false_iff]
      · intro ms hn
        cases ms with
        | nil => intro acc; simp [tryFromPatternMembers, dupFromP]
        | cons q rest =>
          obtain ⟨name, pat⟩ := q
          intro acc
          have hty := (ih (sizeOf pat) (by simp at hn; omega)).1 pat (le_refl _)
          rw [tryFromPatternMembers, dupFromP]
          by_cases hck : containsKey name acc = true
          · have hc : (acc.map Prod.fst).contains name = true :=
              contains_iff_mem.mpr (containsKey_iff_mem_keys.mp hck)
            rw [if_pos hck, hc]
            simp
          · have hc : (acc.map Prod.fst).contains name = false := by
              rw [← Bool.not_eq_true, contains_iff_mem]
              intro hm
              exact hck (containsKey_iff_mem_keys.mpr hm)
            simp only [hck, Bool.false_eq_true, if_false, hc, Bool.false_or]
            cases h1 : tryFromPattern pat with
            | error e =>
              have : patHasDupTrav pat = true := by
                rcases Bool.eq_false_or_eq_true (patHasDupTrav pat) with ht | hf
                · exact ht
                · obtain ⟨v, hv⟩ := hty.mpr hf
                  rw [h1] at hv
                  cases hv
              simp [this]
            | ok v =>
              have hdty : patHasDupTrav pat = false := hty.mp ⟨v, h1⟩
              have hrest := (ih (sizeOf rest) (by simp at hn; omega)).2.2 rest
                (le_refl _) (insertSorted name v acc)
              rw [dupFromP_congr rest ((insertSorted name v acc).map Prod.fst)
                (name :: acc.map Prod.fst) (fun x => keys_insertSorted_iff)] at hrest
              simp [hdty, hrest]
  exact ⟨fun p => (main (sizeOf p)).1 p (le_refl _),
    fun l => (main (sizeOf l)).2.1 l (le_refl _),
    fun ms => (main (sizeOf ms)).2.2 ms (le_refl _)⟩

theorem conv_pat_err :
    (∀ p : Pattern, ∀ m, tryFromPattern p = .error (.DuplicatedMember m) →
      patUsesTwiceTrav m p = true) ∧
    (∀ l : List Pattern, ∀ m, tryFromPatternList l = .error (.DuplicatedMember m) →
      patUsesTwiceTravL m l = true) ∧
    (∀ ms : List (String × Pattern), ∀ acc m,
      tryFromPatternMembers acc ms = .error (.DuplicatedMember m) →
      (m ∈ acc.map Prod.fst ∧ m ∈ ms.map Prod.fst) ∨
        2 ≤ (ms.map Prod.fst).count m ∨ patUsesTwiceTravM m ms = true) := by
  have main : ∀ n,
      (∀ p : Pattern, sizeOf p ≤ n → ∀ m, tryFromPattern p = .error (.DuplicatedMember m) →
        patUsesTwiceTrav m p = true) ∧
      (∀ l : List Pattern, sizeOf l ≤ n → ∀ m,
        tryFromPatternList l = .error (.DuplicatedMember m) → patUsesTwiceTravL m l = true) ∧
      (∀ ms : List (String × Pattern), sizeOf ms ≤ n → ∀ acc m,
        tryFromPatternMembers acc ms = .error (.DuplicatedMember m) →
        (m ∈ acc.map Prod.fst ∧ m ∈ ms.map Prod.fst) ∨
          2 ≤ (ms.map Prod.fst).count m ∨ patUsesTwiceTravM m ms = true) := by
    intro n
    induction n using Nat.strong_induction_on with
    | _ n ih =>
      refine ⟨?_, ?_, ?_⟩
      · intro p hn m herr
        cases p with
        | Variable name => rw [tryFromPattern] at herr; cases herr
        | Tuple l =>
          rw [tryFromPattern] at herr
          rw [patUsesTwiceTrav]
          cases h : tryFromPatternList l with
          | ok gs => rw [h] at herr; cases herr
          | error e =>
            rw [h] at herr
            cases herr
            exact (ih (sizeOf l) (by simp at hn; omega)).2.1 l (le_refl _) m h
        | Struct sn members =>
          cases sn with
          | Named path g =>
            rw [tryFromPattern] at herr
            rw [patUsesTwiceTrav]
            cases h : tryFromTypeList g with
            | ok gs => rw [h] at herr; cases herr
            | error e =>
              rw [h] at herr
              cases herr
              exact conv_type_err.2.1 g m h
          | Anonymous =>
            rw [tryFromPattern] at herr
            rw [patUsesTwiceTrav]
            cases h : tryFromPatternMembers [] members with
            | ok r => rw [h] at herr; cases herr
            | error e =>
              rw [h] at herr
              cases herr
              rcases (ih (sizeOf members) (by simp at hn; omega)).2.2 members
                  (le_refl _) [] m h with ⟨hacc, _⟩ | hcnt | huse
              · simp at hacc
              · simp [hcnt]
              · simp [huse]
      · intro l hn m herr
        cases l with
        | nil => rw [tryFromPatternList] at herr; cases herr
        | cons p ps =>
          rw [tryFromPatternList] at herr
          rw [patUsesTwiceTravL]
          cases h1 : tryFromPattern p with
          | ok v =>
            rw [h1] at herr
            cases h2 : tryFromPatternList ps with
            | ok vs => rw [h2] at herr; cases herr
            | error e =>
              rw [h2] at herr
              cases herr
              rw [(ih (sizeOf ps) (by simp at hn; omega)).2.1 ps (le_refl _) m h2]
              simp
          | error e =>
            rw [h1] at herr
            cases herr
            rw [(ih (sizeOf p) (by simp at hn; omega)).1 p (le_refl _) m h1]
            simp
      · intro ms hn acc m herr
        cases ms with
        | nil => rw [tryFromPatternMembers] at herr; cases herr
        | cons q rest =>
          obtain ⟨name, pat⟩ := q
          rw [tryFromPatternMembers] at herr
          by_cases hck : containsKey name acc = true
          · rw [if_pos hck] at herr
            cases herr
            exact .inl ⟨containsKey_iff_mem_keys.mp hck, by simp⟩
          · rw [if_neg hck] at herr
            cases h1 : tryFromPattern pat with
            | error e =>
              rw [h1] at herr
              cases herr
              right; right
              rw [patUsesTwiceTravM,
                (ih (sizeOf pat) (by simp at hn; omega)).1 pat (le_refl _) m h1]
              simp
            | ok v =>
              rw [h1] at herr
              rcases (ih (sizeOf rest) (by simp at hn; omega)).2.2 rest (le_refl _)
                  (insertSorted name v acc) m herr with ⟨hacc, hrest⟩ | hcnt | huse
              · rcases List.mem_cons.mp (keys_insertSorted_iff.mp hacc) with he | hacc2
                · subst he
                  right; left
                  simp only [List.map_cons, List.count_cons_self]
                  have : 1 ≤ (rest.map Prod.fst).count m := List.count_pos_iff.mpr hrest
                  omega
                · exact .inl ⟨hacc2, by simp [hrest]⟩
              · right; left
                simp only [List.map_cons]
                rw [List.count_cons]
                omega
              · right; right
                rw [patUsesTwiceTravM, huse]
                simp
  exact ⟨fun p => (main (sizeOf p)).1 p (le_refl _),
    fun l => (main (sizeOf l)).2.1 l (le_refl _),
    fun ms => (main (sizeOf ms)).2.2 ms (le_refl _)⟩

end Kirl

namespace Kirl

/-- C4 counterexample: the pattern `S { x: #{a: v, a: w} }` has an anonymous-struct
form at a nesting level using the field name `"a"` twice, yet its conversion
succeeds — the named-struct clause of `TryFrom<&Pattern>` ignores the member
patterns — refuting the claimed "Err iff duplicate at any nesting level". -/
theorem C4_counterexample :
    tryFromPattern (.Struct (.Named ["S"] [])
        [("x", .Struct .Anonymous [("a", .Variable "v"), ("a", .Variable "w")])]) =
      .ok (.Named ["S"] []) ∧
    patUsesTwiceFull "a" (.Struct (.Named ["S"] [])
        [("x", .Struct .Anonymous [("a", .Variable "v"), ("a", .Variable "w")])]) = true := by
  constructor
  · simp [tryFromPattern, tryFromTypeList]
  · simp [patUsesTwiceFull, patUsesTwiceFullM, patUsesTwiceFullL, typeUsesTwiceL,
      List.count_cons]

/-- C4 (amended): a conversion returns `Ok` exactly when no anonymous-struct form
at a **traversed** nesting level duplicates a field name, and every
`DuplicatedMember(n)` it returns names a field that is genuinely used twice at a
traversed level. For `TryFrom<Type>` every nesting level is traversed
(`typeHasDup`); for `TryFrom<&Pattern>` the member patterns under a named-struct
pattern are not traversed (`patHasDupTrav`), so duplicates occurring only there
are not detected. -/
theorem C4_conversion :
    (∀ t : SType, ((∃ v, tryFromType t = .ok v) ↔ typeHasDup t = false)) ∧
    (∀ t : SType, ∀ m, tryFromType t = .error (.DuplicatedMember m) →
      typeUsesTwice m t = true) ∧
    (∀ p : Pattern, ((∃ v, tryFromPattern p = .ok v) ↔ patHasDupTrav p = false)) ∧
    (∀ p : Pattern, ∀ m, tryFromPattern p = .error (.DuplicatedMember m) →
      patUsesTwiceTrav m p = true) :=
  ⟨conv_type_ok.1, conv_type_err.1, conv_pat_ok.1, conv_pat_err.1⟩

/-- C4 witness: the amended claim applied at `#{a: (), a: ()}` — the conversion
fails with `DuplicatedMember("a")` and the theorem yields that `"a"` is indeed
used twice. -/
theorem C4_witness :
    typeUsesTwice "a" (.AnonymousStruct [("a", .None), ("a", .None)]) = true := by
  apply C4_conversion.2.1 (.AnonymousStruct [("a", .None), ("a", .None)]) "a"
  simp [tryFromType, tryFromTypeMembers, containsKey, lookup, insertSorted]

end Kirl

namespace Kirl

/-! ## Ordering lemmas for `cmp` (towards claims C7 and C2) -/

theorem then_swap (o1 o2 : Ordering) : (o1.then o2).swap = o1.swap.then o2.swap := by
  cases o1 <;> cases o2 <;> rfl

theorem then_eq_eq {o1 o2 : Ordering} : o1.then o2 = .eq ↔ o1 = .eq ∧ o2 = .eq := by
  cases o1 <;> cases o2 <;> simp [Ordering.then]

theorem cmpNat_swap (a b : Nat) : (cmpNat a b).swap = cmpNat b a := by
  rcases Nat.lt_trichotomy a b with h | h | h
  · simp [cmpNat, h, Nat.lt_asymm h, Ordering.swap]
  · subst h
    simp [cmpNat, lt_irrefl, Ordering.swap]
  · simp [cmpNat, h, Nat.lt_asymm h, Ordering.swap]

theorem cmpNat_eq_iff {a b : Nat} : cmpNat a b = .eq ↔ a = b := by
  rcases Nat.lt_trichotomy a b with h | h | h
  · simp [cmpNat, h, Nat.lt_asymm h]
    omega
  · subst h
    simp [cmpNat, lt_irrefl]
  · simp [cmpNat, h, Nat.lt_asymm h]
    omega

theorem cmpString_swap (a b : String) : (cmpString a b).swap = cmpString b a := by
  rcases lt_trichotomy a b with h | h | h
  · simp [cmpString, h, lt_asymm h, Ordering.swap]
  · subst h
    simp [cmpString, lt_irrefl, Ordering.swap]
  · simp [cmpString, h, lt_asymm h, Ordering.swap]

theorem cmpString_eq_iff {a b : String} : cmpString a b = .eq ↔ a = b := by
  rcases lt_trichotomy a b with h | h | h
  · simp [cmpString, h, lt_asymm h]
    exact ne_of_lt h
  · subst h
    simp [cmpString, lt_irrefl]
  · simp [cmpString, h, lt_asymm h]
    exact ne_of_gt h

theorem cmpStringList_swap : ∀ l1 l2 : List String,
    (cmpStringList l1 l2).swap = cmpStringList l2 l1 := by
  intro l1
  induction l1 with
  | nil => intro l2; cases l2 <;> rfl
  | cons a t ih =>
    intro l2
    cases l2 with
    | nil => rfl
    | cons b t2 =>
      rw [cmpStringList, cmpStringList, then_swap, cmpString_swap, ih]

theorem cmpStringList_eq_iff : ∀ {l1 l2 : List String},
    cmpStringList l1 l2 = .eq ↔ l1 = l2 := by
  intro l1
  induction l1 with
  | nil => intro l2; cases l2 <;> simp [cmpStringList]
  | cons a t ih =>
    intro l2
    cases l2 with
    | nil => simp [cmpStringList]
    | cons b t2 =>
      rw [cmpStringList, then_eq_eq]
      rw [cmpString_eq_iff]
      simp [ih]

theorem cmp_swap_all :
    (∀ a b : HIRType, (cmp a b).swap = cmp b a) ∧
    (∀ l1 l2 : List HIRType, (cmpL l1 l2).swap = cmpL l2 l1) ∧
    (∀ m1 m2 : List (String × HIRType), (cmpM m1 m2).swap = cmpM m2 m1) := by
  have main : ∀ n,
      (∀ a b : HIRType, sizeOf a + sizeOf b ≤ n → (cmp a b).swap = cmp b a) ∧
      (∀ l1 l2 : List HIRType, sizeOf l1 + sizeOf l2 ≤ n → (cmpL l1 l2).swap = cmpL l2 l1) ∧
      (∀ m1 m2 : List (String × HIRType), sizeOf m1 + sizeOf m2 ≤ n →
        (cmpM m1 m2).swap = cmpM m2 m1) := by
    intro n
    induction n using Nat.strong_induction_on with
    | _ n ih =>
      refine ⟨?_, ?_, ?_⟩
      · intro a b hn
        cases a <;> cases b <;> (try (simp [cmp, tag, cmpNat_swap]; done))
        case Named.Named p1 g1 p2 g2 =>
          have hl := (ih (sizeOf g1 + sizeOf g2) (by simp at hn ⊢; omega)).2.1 g1 g2 (le_refl _)
          rw [cmp, cmp, then_swap, cmpStringList_swap, hl]
        case Tuple.Tuple l1 l2 =>
          have hl := (ih (sizeOf l1 + sizeOf l2) (by simp at hn ⊢; omega)).2.1 l1 l2 (le_refl _)
          rw [cmp, cmp, hl]
        case Array.Array t1 t2 =>
          have hl := (ih (sizeOf t1 + sizeOf t2) (by simp at hn ⊢; omega)).1 t1 t2 (le_refl _)
          rw [cmp, cmp, hl]
        case Function.Function a1 r1 a2 r2 =>
          have h1 := (ih (sizeOf a1 + sizeOf a2) (by simp at hn ⊢; omega)).2.1 a1 a2 (le_refl _)
          have h2 := (ih (sizeOf r1 + sizeOf r2) (by simp at hn ⊢; omega)).1 r1 r2 (le_refl _)
          rw [cmp, cmp, then_swap, h1, h2]
        case AnonymousStruct.AnonymousStruct m1 m2 =>
          have hl := (ih (sizeOf m1 + sizeOf m2) (by simp at hn ⊢; omega)).2.2 m1 m2 (le_refl _)
          rw [cmp, cmp, hl]
        case Or.Or l1 l2 =>
          have hl := (ih (sizeOf l1 + sizeOf l2) (by simp at hn ⊢; omega)).2.1 l1 l2 (le_refl _)
          rw [cmp, cmp, hl]
      · intro l1 l2 hn
        cases l1 with
        | nil => cases l2 <;> simp [cmpL, Ordering.swap]
        | cons t1 r1 =>
          cases l2 with
          | nil => simp [cmpL, Ordering.swap]
          | cons t2 r2 =>
            have h1 := (ih (sizeOf t1 + sizeOf t2) (by simp at hn ⊢; omega)).1 t1 t2 (le_refl _)
            have h2 := (ih (sizeOf r1 + sizeOf r2) (by simp at hn ⊢; omega)).2.1 r1 r2 (le_refl _)
            rw [cmpL, cmpL, then_swap, h1, h2]
      · intro m1 m2 hn
        cases m1 with
        | nil => cases m2 <;> simp [cmpM, Ordering.swap]
        | cons p1 r1 =>
          cases m2 with
          | nil => simp [cmpM, Ordering.swap]
          | cons p2 r2 =>
            obtain ⟨k1, v1⟩ := p1
            obtain ⟨k2, v2⟩ := p2
            have h1 := (ih (sizeOf v1 + sizeOf v2) (by simp at hn ⊢; omega)).1 v1 v2 (le_refl _)
            have h2 := (ih (sizeOf r1 + sizeOf r2) (by simp at hn ⊢; omega)).2.2 r1 r2 (le_refl _)
            rw [cmpM, cmpM, then_swap, then_swap, cmpString_swap, h1, h2]
  exact ⟨fun a b => (main (sizeOf a + sizeOf b)).1 a b (le_refl _),
    fun l1 l2 => (main (sizeOf l1 + sizeOf l2)).2.1 l1 l2 (le_refl _),
    fun m1 m2 => (main (sizeOf m1 + sizeOf m2)).2.2 m1 m2 (le_refl _)⟩

theorem cmp_eq_iff_all :
    (∀ a b : HIRType, cmp a b = .eq ↔ a = b) ∧
    (∀ l1 l2 : List HIRType, cmpL l1 l2 = .eq ↔ l1 = l2) ∧
    (∀ m1 m2 : List (String × HIRType), cmpM m1 m2 = .eq ↔ m1 = m2) := by
  have main : ∀ n,
      (∀ a b : HIRType, sizeOf a + sizeOf b ≤ n → (cmp a b = .eq ↔ a = b)) ∧
      (∀ l1 l2 : List HIRType, sizeOf l1 + sizeOf l2 ≤ n → (cmpL l1 l2 = .eq ↔ l1 = l2)) ∧
      (∀ m1 m2 : List (String × HIRType), sizeOf m1 + sizeOf m2 ≤ n →
        (cmpM m1 m2 = .eq ↔ m1 = m2)) := by
    intro n
    induction n using Nat.strong_induction_on with
    | _ n ih =>
      refine ⟨?_, ?_, ?_⟩
      · intro a b hn
        cases a <;> cases b <;>
          (try (simp [cmp, tag, cmpNat_eq_iff, cmpNat]; done))
        case GenericsTypeArgument.GenericsTypeArgument i j =>
          rw [cmp, cmpNat_eq_iff]
          simp
        case Named.Named p1 g1 p2 g2 =>
          have hl := (ih (sizeOf g1 + sizeOf g2) (by simp at hn ⊢; omega)).2.1 g1 g2 (le_refl _)
          rw [cmp, then_eq_eq, cmpStringList_eq_iff, hl]
          simp
        case Tuple.Tuple l1 l2 =>
          have hl := (ih (sizeOf l1 + sizeOf l2) (by simp at hn ⊢; omega)).2.1 l1 l2 (le_refl _)
          rw [cmp, hl]
          simp
        case Array.Array t1 t2 =>
          have hl := (ih (sizeOf t1 + sizeOf t2) (by simp at hn ⊢; omega)).1 t1 t2 (le_refl _)
          rw [cmp, hl]
          simp
        case Function.Function a1 r1 a2 r2 =>
          have h1 := (ih (sizeOf a1 + sizeOf a2) (by simp at hn ⊢; omega)).2.1 a1 a2 (le_refl _)
          have h2 := (ih (sizeOf r1 + sizeOf r2) (by simp at hn ⊢; omega)).1 r1 r2 (le_refl _)
          rw [cmp, then_eq_eq, h1, h2]
          simp
        case AnonymousStruct.AnonymousStruct m1 m2 =>
          have hl := (ih (sizeOf m1 + sizeOf m2) (by simp at hn ⊢; omega)).2.2 m1 m2 (le_refl _)
          rw [cmp, hl]
          simp
        case Or.Or l1 l2 =>
          have hl := (ih (sizeOf l1 + sizeOf l2) (by simp at hn ⊢; omega)).2.1 l1 l2 (le_refl _)
          rw [cmp, hl]
          simp
      · intro l1 l2 hn
        cases l1 with
        | nil => cases l2 <;> simp [cmpL]
        | cons t1 r1 =>
          cases l2 with
          | nil => simp [cmpL]
          | cons t2 r2 =>
            have h1 := (ih (sizeOf t1 + sizeOf t2) (by simp at hn ⊢; omega)).1 t1 t2 (le_refl _)
            have h2 := (ih (sizeOf r1 + sizeOf r2) (by simp at hn ⊢; omega)).2.1 r1 r2 (le_refl _)
            rw [cmpL, then_eq_eq, h1, h2]
            simp
      · intro m1 m2 hn
        cases m1 with
        | nil => cases m2 <;> simp [cmpM]
        | cons p1 r1 =>
          cases m2 with
          | nil => simp [cmpM]
          | cons p2 r2 =>
            obtain ⟨k1, v1⟩ := p1
            obtain ⟨k2, v2⟩ := p2
            have h1 := (ih (sizeOf v1 + sizeOf v2) (by simp at hn ⊢; omega)).1 v1 v2 (le_refl _)
            have h2 := (ih (sizeOf r1 + sizeOf r2) (by simp at hn ⊢; omega)).2.2 r1 r2 (le_refl _)
            rw [cmpM, then_eq_eq, then_eq_eq, cmpString_eq_iff, h1, h2]
            simp
            try tauto
  exact ⟨fun a b => (main (sizeOf a + sizeOf b)).1 a b (le_refl _),
    fun l1 l2 => (main (sizeOf l1 + sizeOf l2)).2.1 l1 l2 (le_refl _),
    fun m1 m2 => (main (sizeOf m1 + sizeOf m2)).2.2 m1 m2 (le_refl _)⟩

theorem cmp_refl (a : HIRType) : cmp a a = .eq := cmp_eq_iff_all.1 a a |>.mpr rfl

theorem cmp_gt_iff_lt {a b : HIRType} : cmp a b = .gt ↔ cmp b a = .lt := by
  rw [← cmp_swap_all.1 b a]
  cases cmp b a <;> simp [Ordering.swap]

end Kirl

namespace Kirl

/-! ## Sorting, dedup and flatten lemmas (towards claims C7 and C2) -/

theorem insertType_headOpt (a : HIRType) : ∀ l : List HIRType,
    (insertType a l).head? = some a ∨ (insertType a l).head? = l.head? := by
  intro l
  cases l with
  | nil => left; rfl
  | cons b t =>
    rw [insertType]
    split
    · right; rfl
    · left; rfl

theorem insertType_chain {a : HIRType} : ∀ {l : List HIRType},
    List.Chain' (fun x y => cmp x y ≠ .gt) l →
    List.Chain' (fun x y => cmp x y ≠ .gt) (insertType a l) := by
  intro l
  induction l with
  | nil => intro _; simp [insertType]
  | cons b t ih =>
    intro h
    rw [insertType]
    rw [List.chain'_cons'] at h
    obtain ⟨hhead, htail⟩ := h
    split
    · rename_i hgt
      rw [List.chain'_cons']
      refine ⟨?_, ih htail⟩
      intro y hy
      rcases insertType_headOpt a t with he | he
      · rw [he] at hy
        cases hy
        have hlt : cmp b a = Ordering.lt := cmp_gt_iff_lt.mp hgt
        intro hc
        rw [hc] at hlt
        cases hlt
      · rw [he] at hy
        exact hhead y hy
    · rename_i hngt
      rw [List.chain'_cons]
      exact ⟨hngt, List.chain'_cons'.mpr ⟨hhead, htail⟩⟩

theorem sortTypes_chain : ∀ l : List HIRType,
    List.Chain' (fun x y => cmp x y ≠ .gt) (sortTypes l) := by
  intro l
  induction l with
  | nil => simp [sortTypes]
  | cons a t ih =>
    rw [sortTypes]
    exact insertType_chain ih

theorem sortTypes_eq_of_chain : ∀ {l : List HIRType},
    List.Chain' (fun x y => cmp x y ≠ .gt) l → sortTypes l = l := by
  intro l
  induction l with
  | nil => intro _; rfl
  | cons a t ih =>
    intro h
    rw [List.chain'_cons'] at h
    obtain ⟨hhead, htail⟩ := h
    rw [sortTypes, ih htail]
    cases t with
    | nil => rfl
    | cons b t' =>
      rw [insertType, if_neg (hhead b rfl)]

theorem mem_insertType {x a : HIRType} : ∀ {l : List HIRType},
    x ∈ insertType a l ↔ x = a ∨ x ∈ l := by
  intro l
  induction l with
  | nil => simp [insertType]
  | cons b t ih =>
    rw [insertType]
    split
    · simp only [List.mem_cons, ih]
      try tauto
    · simp only [List.mem_cons]
      try tauto

theorem mem_sortTypes {x : HIRType} : ∀ {l : List HIRType}, x ∈ sortTypes l ↔ x ∈ l := by
  intro l
  induction l with
  | nil => simp [sortTypes]
  | cons a t ih =>
    rw [sortTypes, mem_insertType]
    simp [ih]

theorem dedupTypes_cons_head (a : HIRType) : ∀ l : List HIRType,
    ∃ t, dedupTypes (a :: l) = a :: t := by
  intro l
  induction l generalizing a with
  | nil => exact ⟨[], by simp [dedupTypes]⟩
  | cons b t ih =>
    rw [dedupTypes]
    split
    · exact ih a
    · exact ⟨dedupTypes (b :: t), rfl⟩

theorem dedupTypes_chain_lt : ∀ (n : Nat) (l : List HIRType), l.length ≤ n →
    List.Chain' (fun x y => cmp x y ≠ .gt) l →
    List.Chain' (fun x y => cmp x y = .lt) (dedupTypes l) := by
  intro n
  induction n with
  | zero =>
    intro l hl _
    have hz : l = [] := List.length_eq_zero.mp (by omega)
    subst hz
    simp [dedupTypes]
  | succ n ih =>
    intro l hl hc
    match l with
    | [] => simp [dedupTypes]
    | [a] => simp [dedupTypes]
    | a :: b :: rest =>
      rw [dedupTypes]
      rw [List.chain'_cons] at hc
      obtain ⟨hab, hc2⟩ := hc
      split
      · rename_i hbeq
        have hab2 : a = b := (beq_iff_eq a b).mp hbeq
        subst hab2
        exact ih (a :: rest) (by simp at hl ⊢; omega)
          (by
            rw [List.chain'_cons'] at hc2 ⊢
            exact hc2)
      · rename_i hbeq
        have hne : a ≠ b := by
          intro he
          rw [he, beq_refl] at hbeq
          exact hbeq rfl
        obtain ⟨t, ht⟩ := dedupTypes_cons_head b rest
        rw [ht]
        rw [List.chain'_cons]
        constructor
        · cases hcmp : cmp a b with
          | lt => rfl
          | eq => exact absurd (cmp_eq_iff_all.1 a b |>.mp hcmp) hne
          | gt => exact absurd hcmp hab
        · rw [← ht]
          exact ih (b :: rest) (by simp at hl ⊢; omega) hc2

theorem dedupTypes_eq_of_chain_lt : ∀ (n : Nat) (l : List HIRType), l.length ≤ n →
    List.Chain' (fun x y => cmp x y = .lt) l → dedupTypes l = l := by
  intro n
  induction n with
  | zero =>
    intro l hl _
    have hz : l = [] := List.length_eq_zero.mp (by omega)
    subst hz
    simp [dedupTypes]
  | succ n ih =>
    intro l hl hc
    match l with
    | [] => simp [dedupTypes]
    | [a] => simp [dedupTypes]
    | a :: b :: rest =>
      rw [dedupTypes]
      rw [List.chain'_cons] at hc
      obtain ⟨hab, hc2⟩ := hc
      have hne : a ≠ b := by
        intro he
        rw [he, cmp_refl] at hab
        cases hab
      rw [if_neg (by rw [beq_eq_false_iff.mpr hne]; simp)]
      rw [ih (b :: rest) (by simp at hl ⊢; omega) hc2]

theorem mem_dedupTypes {x : HIRType} : ∀ (n : Nat) (l : List HIRType), l.length ≤ n →
    (x ∈ dedupTypes l ↔ x ∈ l) := by
  intro n
  induction n with
  | zero =>
    intro l hl
    have hz : l = [] := List.length_eq_zero.mp (by omega)
    subst hz
    simp [dedupTypes]
  | succ n ih =>
    intro l hl
    match l with
    | [] => simp [dedupTypes]
    | [a] => simp [dedupTypes]
    | a :: b :: rest =>
      rw [dedupTypes]
      split
      · rename_i hbeq
        have hab : a = b := (beq_iff_eq a b).mp hbeq
        subst hab
        rw [ih (a :: rest) (by simp at hl ⊢; omega)]
        simp
      · simp only [List.mem_cons]
        rw [ih (b :: rest) (by simp at hl ⊢; omega)]
        simp

theorem chain_filter_local {R : HIRType → HIRType → Prop} {p : HIRType → Bool}
    (htrans : ∀ x y z, p y = false → R x y → R y z → R x z) :
    ∀ (l : List HIRType) (a : HIRType), List.Chain R a l → List.Chain R a (l.filter p) := by
  intro l
  induction l with
  | nil => intro a _; simp
  | cons b t ih =>
    intro a h
    rw [List.chain_cons] at h
    obtain ⟨hab, hbt⟩ := h
    by_cases hp : p b = true
    · rw [List.filter_cons_of_pos hp, List.chain_cons]
      exact ⟨hab, ih b hbt⟩
    · rw [List.filter_cons_of_neg (by simpa using hp)]
      apply ih a
      cases t with
      | nil => simp
      | cons c t' =>
        rw [List.chain_cons] at hbt ⊢
        exact ⟨htrans a b c (by simpa using hp) hab hbt.1, hbt.2⟩

theorem chain'_filter_local {R : HIRType → HIRType → Prop} {p : HIRType → Bool}
    (htrans : ∀ x y z, p y = false → R x y → R y z → R x z) :
    ∀ l : List HIRType, List.Chain' R l → List.Chain' R (l.filter p) := by
  intro l
  induction l with
  | nil => intro _; simp
  | cons a t ih =>
    intro h
    by_cases hp : p a = true
    · rw [List.filter_cons_of_pos hp]
      exact chain_filter_local htrans t a h
    · rw [List.filter_cons_of_neg (by simpa using hp)]
      exact ih (List.Chain'.tail h)

theorem cmp_lt_unreachable {x : HIRType} (h : cmp x .Unreachable = .lt) : x = .Infer := by
  cases x <;> simp_all [cmp, tag, cmpNat]

theorem cmp_unreachable_lt {z : HIRType} (h : cmp .Unreachable z = .lt) :
    cmp .Infer z = .lt := by
  cases z <;> simp_all [cmp, tag, cmpNat]

theorem localU : ∀ x y z : HIRType, (!(beq y .Unreachable)) = false →
    cmp x y = .lt → cmp y z = .lt → cmp x z = .lt := by
  intro x y z hp h1 h2
  have hy : y = .Unreachable := by
    rcases Bool.eq_false_or_eq_true (beq y .Unreachable) with ht | hf
    · exact (beq_iff_eq y .Unreachable).mp ht
    · rw [hf] at hp
      cases hp
  subst hy
  rw [cmp_lt_unreachable h1]
  exact cmp_unreachable_lt h2

theorem mem_flattenOr {x : HIRType} : ∀ {l : List HIRType},
    x ∈ flattenOr l ↔ ∃ c ∈ l, (∃ li, c = .Or li ∧ x ∈ li) ∨ (isOrT c = false ∧ x = c) := by
  intro l
  induction l with
  | nil => simp [flattenOr]
  | cons c rest ih =>
    cases c with
    | Or li =>
      simp only [flattenOr]
      simp only [List.mem_append, ih, List.mem_cons]
      constructor
      · rintro (hx | ⟨c2, hc2, hdisj⟩)
        · exact ⟨.Or li, .inl rfl, .inl ⟨li, rfl, hx⟩⟩
        · exact ⟨c2, .inr hc2, hdisj⟩
      · rintro ⟨c2, hc | hc, hdisj⟩
        · subst hc
          rcases hdisj with ⟨li2, he, hx⟩ | ⟨hno, _⟩
          · cases he
            exact .inl hx
          · simp [isOrT] at hno
        · exact .inr ⟨c2, hc, hdisj⟩
    | Infer =>
      simp only [flattenOr]
      simp only [List.mem_cons, ih]
      constructor
      · rintro (rfl | ⟨c2, hc2, hdisj⟩)
        · exact ⟨.Infer, .inl rfl, .inr ⟨rfl, rfl⟩⟩
        · exact ⟨c2, .inr hc2, hdisj⟩
      · rintro ⟨c2, hc | hc, hdisj⟩
        · subst hc
          rcases hdisj with ⟨li2, he, _⟩ | ⟨_, he⟩
          · cases he
          · exact .inl he
        · exact .inr ⟨c2, hc, hdisj⟩
    | Unreachable =>
      simp only [flattenOr]
      simp only [List.mem_cons, ih]
      constructor
      · rintro (rfl | ⟨c2, hc2, hdisj⟩)
        · exact ⟨.Unreachable, .inl rfl, .inr ⟨rfl, rfl⟩⟩
        · exact ⟨c2, .inr hc2, hdisj⟩
      · rintro ⟨c2, hc | hc, hdisj⟩
        · subst hc
          rcases hdisj with ⟨li2, he, _⟩ | ⟨_, he⟩
          · cases he
          · exact .inl he
        · exact .inr ⟨c2, hc, hdisj⟩
    | GenericsTypeArgument i =>
      simp only [flattenOr]
      simp only [List.mem_cons, ih]
      constructor
      · rintro (rfl | ⟨c2, hc2, hdisj⟩)
        · exact ⟨.GenericsTypeArgument i, .inl rfl, .inr ⟨rfl, rfl⟩⟩
        · exact ⟨c2, .inr hc2, hdisj⟩
      · rintro ⟨c2, hc | hc, hdisj⟩
        · subst hc
          rcases hdisj with ⟨li2, he, _⟩ | ⟨_, he⟩
          · cases he
          · exact .inl he
        · exact .inr ⟨c2, hc, hdisj⟩
    | Named p g =>
      simp only [flattenOr]
      simp only [List.mem_cons, ih]
      constructor
      · rintro (rfl | ⟨c2, hc2, hdisj⟩)
        · exact ⟨.Named p g, .inl rfl, .inr ⟨rfl, rfl⟩⟩
        · exact ⟨c2, .inr hc2, hdisj⟩
      · rintro ⟨c2, hc | hc, hdisj⟩
        · subst hc
          rcases hdisj with ⟨li2, he, _⟩ | ⟨_, he⟩
          · cases he
          · exact .inl he
        · exact .inr ⟨c2, hc, hdisj⟩
    | Tuple items =>
      simp only [flattenOr]
      simp only [List.mem_cons, ih]
      constructor
      · rintro (rfl | ⟨c2, hc2, hdisj⟩)
        · exact ⟨.Tuple items, .inl rfl, .inr ⟨rfl, rfl⟩⟩
        · exact ⟨c2, .inr hc2, hdisj⟩
      · rintro ⟨c2, hc | hc, hdisj⟩
        · subst hc
          rcases hdisj with ⟨li2, he, _⟩ | ⟨_, he⟩
          · cases he
          · exact .inl he
        · exact .inr ⟨c2, hc, hdisj⟩
    | Array item =>
      simp only [flattenOr]
      simp only [List.mem_cons, ih]
      constructor
      · rintro (rfl | ⟨c2, hc2, hdisj⟩)
        · exact ⟨.Array item, .inl rfl, .inr ⟨rfl, rfl⟩⟩
        · exact ⟨c2, .inr hc2, hdisj⟩
      · rintro ⟨c2, hc | hc, hdisj⟩
        · subst hc
          rcases hdisj with ⟨li2, he, _⟩ | ⟨_, he⟩
          · cases he
          · exact .inl he
        · exact .inr ⟨c2, hc, hdisj⟩
    | Function a r =>
      simp only [flattenOr]
      simp only [List.mem_cons, ih]
      constructor
      · rintro (rfl | ⟨c2, hc2, hdisj⟩)
        · exact ⟨.Function a r, .inl rfl, .inr ⟨rfl, rfl⟩⟩
        · exact ⟨c2, .inr hc2, hdisj⟩
      · rintro ⟨c2, hc | hc, hdisj⟩
        · subst hc
          rcases hdisj with ⟨li2, he, _⟩ | ⟨_, he⟩
          · cases he
          · exact .inl he
        · exact .inr ⟨c2, hc, hdisj⟩
    | AnonymousStruct m =>
      simp only [flattenOr]
      simp only [List.mem_cons, ih]
      constructor
      · rintro (rfl | ⟨c2, hc2, hdisj⟩)
        · exact ⟨.AnonymousStruct m, .inl rfl, .inr ⟨rfl, rfl⟩⟩
        · exact ⟨c2, .inr hc2, hdisj⟩
      · rintro ⟨c2, hc | hc, hdisj⟩
        · subst hc
          rcases hdisj with ⟨li2, he, _⟩ | ⟨_, he⟩
          · cases he
          · exact .inl he
        · exact .inr ⟨c2, hc, hdisj⟩

theorem flattenOr_eq_of_no_or : ∀ {l : List HIRType},
    (∀ x ∈ l, isOrT x = false) → flattenOr l = l := by
  intro l
  induction l with
  | nil => intro _; rfl
  | cons c rest ih =>
    intro h
    have hc := h c (by simp)
    cases c <;> simp [isOrT] at hc <;>
      (simp only [flattenOr]; rw [ih (fun x hx => h x (by simp [hx]))])

end Kirl

namespace Kirl

/-! ## The shape invariant of `normalize` and claim C7 -/

theorem NormalizedL_iff : ∀ {l : List HIRType}, NormalizedL l ↔ ∀ x ∈ l, Normalized x := by
  intro l
  induction l with
  | nil => simp [NormalizedL]
  | cons t ts ih =>
    rw [NormalizedL]
    simp [ih]

theorem NormalizedM_iff : ∀ {m : List (String × HIRType)},
    NormalizedM m ↔ ∀ p ∈ m, Normalized p.2 := by
  intro m
  induction m with
  | nil => simp [NormalizedM]
  | cons p rest ih =>
    obtain ⟨k, v⟩ := p
    rw [NormalizedM]
    simp [ih]

theorem mem_normalizeList {x : HIRType} : ∀ {l : List HIRType},
    x ∈ normalizeList l ↔ ∃ y ∈ l, x = normalize y := by
  intro l
  induction l with
  | nil => simp [normalizeList]
  | cons t ts ih =>
    rw [normalizeList]
    simp only [List.mem_cons, ih]
    constructor
    · rintro (rfl | ⟨y, hy, rfl⟩)
      · exact ⟨t, .inl rfl, rfl⟩
      · exact ⟨y, .inr hy, rfl⟩
    · rintro ⟨y, rfl | hy, rfl⟩
      · exact .inl rfl
      · exact .inr ⟨y, hy, rfl⟩

theorem normalizeList_eq_of : ∀ {l : List HIRType},
    (∀ x ∈ l, normalize x = x) → normalizeList l = l := by
  intro l
  induction l with
  | nil => intro _; simp [normalizeList]
  | cons t ts ih =>
    intro h
    rw [normalizeList, h t (by simp), ih (fun x hx => h x (by simp [hx]))]

theorem normalize_or_eq (l : List HIRType) :
    normalize (.Or l) =
      (match (if 1 < (dedupTypes (sortTypes (flattenOr (normalizeList l)))).length
          then (dedupTypes (sortTypes (flattenOr (normalizeList l)))).filter
            (fun t => !(beq t .Unreachable))
          else dedupTypes (sortTypes (flattenOr (normalizeList l)))) with
        | [t] => t
        | l' => .Or l') := by
  rw [normalize]

theorem Normalized_or_iff {l : List HIRType} :
    Normalized (.Or l) ↔
      NormalizedL l ∧ (∀ x ∈ l, isOrT x = false) ∧
      List.Chain' (fun x y => cmp x y = .lt) l ∧ l.length ≠ 1 ∧
      (1 < l.length → HIRType.Unreachable ∉ l) := by
  rw [Normalized]

theorem normalize_normalized : ∀ t : HIRType, Normalized (normalize t) := by
  have main : ∀ n, ∀ t : HIRType, sizeOf t ≤ n → Normalized (normalize t) := by
    intro n
    induction n using Nat.strong_induction_on with
    | _ n ih =>
      intro t hn
      cases t with
      | Infer => simp only [normalize, Normalized]
      | Unreachable => simp only [normalize, Normalized]
      | GenericsTypeArgument i => simp only [normalize, Normalized]
      | Named p g => simp only [normalize, Normalized]
      | Tuple l =>
        rw [normalize, Normalized, NormalizedL_iff]
        intro x hx
        obtain ⟨y, hy, rfl⟩ := mem_normalizeList.mp hx
        exact ih (sizeOf y) (by
            have := List.sizeOf_lt_of_mem hy
            simp at hn
            omega) y (le_refl _)
      | Array t =>
        rw [normalize, Normalized]
        exact ih (sizeOf t) (by simp at hn; omega) t (le_refl _)
      | Function a r =>
        rw [normalize, Normalized]
        constructor
        · rw [NormalizedL_iff]
          intro x hx
          obtain ⟨y, hy, rfl⟩ := mem_normalizeList.mp hx
          exact ih (sizeOf y) (by
              have := List.sizeOf_lt_of_mem hy
              simp at hn
              omega) y (le_refl _)
        · exact ih (sizeOf r) (by simp at hn; omega) r (le_refl _)
      | AnonymousStruct m =>
        rw [normalize, Normalized, NormalizedM_iff]
        have hmem : ∀ p ∈ normalizeMembers m, ∃ q ∈ m, p = (q.1, normalize q.2) := by
          intro p hp
          clear hn
          induction m with
          | nil => simp [normalizeMembers] at hp
          | cons q rest ihm =>
            obtain ⟨k, v⟩ := q
            rw [normalizeMembers] at hp
            rcases List.mem_cons.mp hp with rfl | hp2
            · exact ⟨(k, v), by simp, rfl⟩
            · obtain ⟨q2, hq2, rfl⟩ := ihm hp2
              exact ⟨q2, by simp [hq2], rfl⟩
        intro p hp
        obtain ⟨q, hq, rfl⟩ := hmem p hp
        have hsz : sizeOf q.2 < sizeOf m := by
          obtain ⟨k, v⟩ := q
          have := List.sizeOf_lt_of_mem hq
          simp at this ⊢
          omega
        exact ih (sizeOf q.2) (by simp at hn; omega) q.2 (le_refl _)
      | Or l =>
        have hL1 : ∀ x ∈ normalizeList l, Normalized x := by
          intro x hx
          obtain ⟨y, hy, rfl⟩ := mem_normalizeList.mp hx
          exact ih (sizeOf y) (by
              have := List.sizeOf_lt_of_mem hy
              simp at hn
              omega) y (le_refl _)
        have hL2 : ∀ x ∈ flattenOr (normalizeList l), Normalized x ∧ isOrT x = false := by
          intro x hx
          obtain ⟨c, hc, hdisj⟩ := mem_flattenOr.mp hx
          rcases hdisj with ⟨li, rfl, hxli⟩ | ⟨hno, rfl⟩
          · have hnc := hL1 _ hc
            rw [Normalized_or_iff] at hnc
            exact ⟨NormalizedL_iff.mp hnc.1 x hxli, hnc.2.1 x hxli⟩
          · exact ⟨hL1 _ hc, hno⟩
        have hL4mem : ∀ x ∈ dedupTypes (sortTypes (flattenOr (normalizeList l))),
            Normalized x ∧ isOrT x = false := by
          intro x hx
          have hx3 := (mem_dedupTypes (sortTypes (flattenOr (normalizeList l))).length
            _ (le_refl _)).mp hx
          exact hL2 x (mem_sortTypes.mp hx3)
        have hL4chain : List.Chain' (fun x y => cmp x y = .lt)
            (dedupTypes (sortTypes (flattenOr (normalizeList l)))) :=
          dedupTypes_chain_lt (sortTypes (flattenOr (normalizeList l))).length _
            (le_refl _) (sortTypes_chain _)
        rw [normalize_or_eq]
        split
        · rename_i t heq
          by_cases hlen : 1 < (dedupTypes (sortTypes (flattenOr (normalizeList l)))).length
          · rw [if_pos hlen] at heq
            have ht : t ∈ (dedupTypes (sortTypes (flattenOr (normalizeList l)))).filter
                (fun t => !(beq t .Unreachable)) := by
              rw [heq]; simp
            exact (hL4mem t (List.mem_filter.mp ht).1).1
          · rw [if_neg hlen] at heq
            have ht : t ∈ dedupTypes (sortTypes (flattenOr (normalizeList l))) := by
              rw [heq]; simp
            exact (hL4mem t ht).1
        · rename_i hne
          by_cases hlen : 1 < (dedupTypes (sortTypes (flattenOr (normalizeList l)))).length
          · rw [if_pos hlen] at hne ⊢
            rw [Normalized_or_iff]
            refine ⟨?_, ?_, ?_, ?_, ?_⟩
            · rw [NormalizedL_iff]
              intro x hx
              exact (hL4mem x (List.mem_filter.mp hx).1).1
            · intro x hx
              exact (hL4mem x (List.mem_filter.mp hx).1).2
            · exact chain'_filter_local localU _ hL4chain
            · intro hlen1
              obtain ⟨t, ht⟩ := List.length_eq_one.mp hlen1
              exact hne t ht
            · intro _ hmem
              have := (List.mem_filter.mp hmem).2
              rw [beq_refl] at this
              cases this
          · rw [if_neg hlen] at hne ⊢
            rw [Normalized_or_iff]
            refine ⟨?_, ?_, ?_, ?_, ?_⟩
            · rw [NormalizedL_iff]
              intro x hx
              exact (hL4mem x hx).1
            · intro x hx
              exact (hL4mem x hx).2
            · exact hL4chain
            · intro hlen1
              obtain ⟨t, ht⟩ := List.length_eq_one.mp hlen1
              exact hne t ht
            · intro hgt
              exact absurd hgt hlen
  exact fun t => main (sizeOf t) t (le_refl _)

end Kirl


namespace Kirl

theorem normalizeMembers_eq_of : ∀ {m : List (String × HIRType)},
    (∀ p ∈ m, normalize p.2 = p.2) → normalizeMembers m = m := by
  intro m
  induction m with
  | nil => intro _; simp [normalizeMembers]
  | cons p rest ih =>
    intro h
    obtain ⟨k, v⟩ := p
    rw [normalizeMembers]
    rw [show normalize v = v from h (k, v) (by simp)]
    rw [ih (fun q hq => h q (by simp [hq]))]

theorem normalize_eq_of_normalized : ∀ t : HIRType, Normalized t → normalize t = t := by
  have main : ∀ n, ∀ t : HIRType, sizeOf t ≤ n → Normalized t → normalize t = t := by
    intro n
    induction n using Nat.strong_induction_on with
    | _ n ih =>
      intro t hn hN
      cases t with
      | Infer => simp only [normalize]
      | Unreachable => simp only [normalize]
      | GenericsTypeArgument i => simp only [normalize]
      | Named p g => simp only [normalize]
      | Tuple l =>
        rw [Normalized, NormalizedL_iff] at hN
        rw [normalize, normalizeList_eq_of (fun x hx => ih (sizeOf x) (by
            have := List.sizeOf_lt_of_mem hx
            simp at hn
            omega) x (le_refl _) (hN x hx))]
      | Array t =>
        rw [Normalized] at hN
        rw [normalize, ih (sizeOf t) (by simp at hn; omega) t (le_refl _) hN]
      | Function a r =>
        rw [Normalized] at hN
        rw [normalize, normalizeList_eq_of (fun x hx => ih (sizeOf x) (by
            have := List.sizeOf_lt_of_mem hx
            simp at hn
            omega) x (le_refl _) (NormalizedL_iff.mp hN.1 x hx)),
          ih (sizeOf r) (by simp at hn; omega) r (le_refl _) hN.2]
      | AnonymousStruct m =>
        rw [Normalized, NormalizedM_iff] at hN
        rw [normalize, normalizeMembers_eq_of (fun p hp => ih (sizeOf p.2) (by
            have h1 := List.sizeOf_lt_of_mem hp
            have h2 : sizeOf p.2 < sizeOf p := by
              obtain ⟨k, v⟩ := p
              simp
              try omega
            simp at hn
            omega) p.2 (le_refl _) (hN p hp))]
      | Or l =>
        rw [Normalized_or_iff] at hN
        obtain ⟨hNL, hnoOr, hchain, hlen1, hU⟩ := hN
        have h1 : normalizeList l = l := normalizeList_eq_of (fun x hx => ih (sizeOf x) (by
            have := List.sizeOf_lt_of_mem hx
            simp at hn
            omega) x (le_refl _) (NormalizedL_iff.mp hNL x hx))
        have h2 : flattenOr l = l := flattenOr_eq_of_no_or hnoOr
        have hchainle : List.Chain' (fun x y => cmp x y ≠ .gt) l :=
          List.Chain'.imp (fun a b hab => by rw [hab]; simp) hchain
        have h3 : sortTypes l = l := sortTypes_eq_of_chain hchainle
        have h4 : dedupTypes l = l := dedupTypes_eq_of_chain_lt l.length l (le_refl _) hchain
        rw [normalize_or_eq, h1, h2, h3, h4]
        by_cases hlen : 1 < l.length
        · rw [if_pos hlen]
          have h5 : l.filter (fun t => !(beq t .Unreachable)) = l := by
            rw [List.filter_eq_self]
            intro x hx
            have hxu : x ≠ .Unreachable := by
              intro he
              subst he
              exact (hU hlen) hx
            rw [beq_eq_false_iff.mpr hxu]
            simp
          rw [h5]
          split
          · exfalso
            simp at hlen
          · rfl
        · rw [if_neg hlen]
          split
          · exfalso
            simp at hlen1
          · rfl
  exact fun t => main (sizeOf t) t (le_refl _)

/-- C7: normalization is idempotent — `into_normalized` applied to an
already-normalized value changes nothing, so
`t.into_normalized().into_normalized() = t.into_normalized()` for every type `t`. -/
theorem C7_normalize_idempotent :
    ∀ t : HIRType, into_normalized (into_normalized t) = into_normalized t := fun t =>
  normalize_eq_of_normalized _ (normalize_normalized t)

end Kirl

namespace Kirl

/-! ## `is_a` lemmas and claim C2 -/

theorem ufreeL_iff : ∀ {l : List HIRType}, ufreeL l = true ↔ ∀ x ∈ l, ufree x = true := by
  intro l
  induction l with
  | nil => simp [ufreeL]
  | cons t ts ih => rw [ufreeL]; simp [ih]

theorem ufreeM_iff : ∀ {m : List (String × HIRType)},
    ufreeM m = true ↔ ∀ p ∈ m, ufree p.2 = true := by
  intro m
  induction m with
  | nil => simp [ufreeM]
  | cons p rest ih =>
    obtain ⟨k, v⟩ := p
    rw [ufreeM]
    simp [ih]

theorem wellFormedL_iff : ∀ {l : List HIRType},
    wellFormedL l = true ↔ ∀ x ∈ l, wellFormed x = true := by
  intro l
  induction l with
  | nil => simp [wellFormedL]
  | cons t ts ih => rw [wellFormedL]; simp [ih]

theorem wellFormedM_iff : ∀ {m : List (String × HIRType)},
    wellFormedM m = true ↔ ∀ p ∈ m, wellFormed p.2 = true := by
  intro m
  induction m with
  | nil => simp [wellFormedM]
  | cons p rest ih =>
    obtain ⟨k, v⟩ := p
    rw [wellFormedM]
    simp [ih]

theorem mem_normalizeMembers {p : String × HIRType} : ∀ {m : List (String × HIRType)},
    p ∈ normalizeMembers m ↔ ∃ q ∈ m, p = (q.1, normalize q.2) := by
  intro m
  induction m with
  | nil => simp [normalizeMembers]
  | cons q rest ih =>
    obtain ⟨k, v⟩ := q
    rw [normalizeMembers]
    simp only [List.mem_cons, ih]
    constructor
    · rintro (rfl | ⟨q2, hq2, rfl⟩)
      · exact ⟨(k, v), .inl rfl, rfl⟩
      · exact ⟨q2, .inr hq2, rfl⟩
    · rintro ⟨q2, rfl | hq2, rfl⟩
      · exact .inl rfl
      · exact .inr ⟨q2, hq2, rfl⟩

theorem keys_normalizeMembers : ∀ m : List (String × HIRType),
    (normalizeMembers m).map Prod.fst = m.map Prod.fst := by
  intro m
  induction m with
  | nil => simp [normalizeMembers]
  | cons q rest ih =>
    obtain ⟨k, v⟩ := q
    rw [normalizeMembers]
    simp [ih]

theorem lookup_normalizeMembers (k : String) : ∀ m : List (String × HIRType),
    lookup k (normalizeMembers m) = (lookup k m).map normalize := by
  intro m
  induction m with
  | nil => simp [normalizeMembers, lookup]
  | cons q rest ih =>
    obtain ⟨k', v⟩ := q
    rw [normalizeMembers, lookup, lookup]
    split
    · rfl
    · exact ih

theorem normalizeList_length : ∀ l : List HIRType, (normalizeList l).length = l.length := by
  intro l
  induction l with
  | nil => simp [normalizeList]
  | cons t ts ih => rw [normalizeList]; simp [ih]

theorem is_a_named_named (p1 p2 : List String) (a1 a2 : List HIRType) :
    is_a (.Named p1 a1) (.Named p2 a2) =
      (p1 == p2 && a1.length == a2.length && isAZip a1 a2) := by
  simp [is_a]

theorem is_a_array_array (t1 t2 : HIRType) : is_a (.Array t1) (.Array t2) = is_a t1 t2 := by
  simp [is_a]

theorem is_a_function_function (a1 a2 : List HIRType) (r1 r2 : HIRType) :
    is_a (.Function a1 r1) (.Function a2 r2) =
      (a1.length == a2.length && isAZip a2 a1 && is_a r1 r2) := by
  simp [is_a]

theorem is_a_struct_struct (m1 m2 : List (String × HIRType)) :
    is_a (.AnonymousStruct m1) (.AnonymousStruct m2) = isAStruct m1 m2 := by
  simp [is_a]

theorem is_a_gta_gta (i j : Nat) :
    is_a (.GenericsTypeArgument i) (.GenericsTypeArgument j) = (j == i) := by
  simp [is_a]

theorem isAZip_norm_left : ∀ {l : List HIRType},
    (∀ x ∈ l, is_a (normalize x) x = true) → isAZip (normalizeList l) l = true := by
  intro l
  induction l with
  | nil => intro _; simp [normalizeList, isAZip]
  | cons t ts ih =>
    intro h
    rw [normalizeList, isAZip, Bool.and_eq_true]
    exact ⟨h t (by simp), ih (fun x hx => h x (by simp [hx]))⟩

theorem isAZip_norm_right : ∀ {l : List HIRType},
    (∀ x ∈ l, is_a x (normalize x) = true) → isAZip l (normalizeList l) = true := by
  intro l
  induction l with
  | nil => intro _; simp [isAZip]
  | cons t ts ih =>
    intro h
    rw [normalizeList, isAZip, Bool.and_eq_true]
    exact ⟨h t (by simp), ih (fun x hx => h x (by simp [hx]))⟩

theorem is_a_or_of_mem : ∀ s u : HIRType, ∀ l : List HIRType,
    is_a s u = true → u ∈ l → is_a s (.Or l) = true := by
  have main : ∀ n, ∀ s u : HIRType, sizeOf s ≤ n → ∀ l : List HIRType,
      is_a s u = true → u ∈ l → is_a s (.Or l) = true := by
    intro n
    induction n using Nat.strong_induction_on with
    | _ n ih =>
      intro s u hn l hsu hmem
      have hgen : ∀ s2 : HIRType, s2 ≠ .Infer → s2 ≠ .Unreachable → isOrT s2 = false →
          is_a s2 u = true → is_a s2 (.Or l) = true := by
        intro s2 h1 h2 h3 hs2u
        rw [is_a_or_right h1 h2 h3, isAAnyRight_iff]
        exact ⟨u, hmem, hs2u⟩
      cases s with
      | Infer => simp
      | Unreachable => simp
      | GenericsTypeArgument i => exact hgen _ (by simp) (by simp) (by simp [isOrT]) hsu
      | Named p g => exact hgen _ (by simp) (by simp) (by simp [isOrT]) hsu
      | Tuple l2 => exact hgen _ (by simp) (by simp) (by simp [isOrT]) hsu
      | Array t2 => exact hgen _ (by simp) (by simp) (by simp [isOrT]) hsu
      | Function a r => exact hgen _ (by simp) (by simp) (by simp [isOrT]) hsu
      | AnonymousStruct m => exact hgen _ (by simp) (by simp) (by simp [isOrT]) hsu
      | Or m =>
        rw [is_a_or_left (by simp) (by simp), isAAllLeft_iff]
        intro z hz
        have hz_sz : sizeOf z < sizeOf m := List.sizeOf_lt_of_mem hz
        by_cases hu : u = .Infer
        · exact ih (sizeOf z) (by simp at hn; omega) z .Infer (le_refl _) l (by simp)
            (hu ▸ hmem)
        · by_cases hu2 : u = .Unreachable
          · subst hu2
            rw [is_a_unreachable_right (by simp) (by simp)] at hsu
            cases hsu
          · rw [is_a_or_left hu hu2, isAAllLeft_iff] at hsu
            exact ih (sizeOf z) (by simp at hn; omega) z u (le_refl _) l (hsu z hz) hmem
  exact fun s u l hsu hmem => main (sizeOf s) s u (le_refl _) l hsu hmem

theorem isAZip_self : ∀ {l : List HIRType}, (∀ x ∈ l, is_a x x = true) → isAZip l l = true := by
  intro l
  induction l with
  | nil => intro _; simp [isAZip]
  | cons u us ih =>
    intro hz
    rw [isAZip, Bool.and_eq_true]
    exact ⟨hz u (by simp), ih (fun x hx => hz x (by simp [hx]))⟩

theorem is_a_refl : ∀ t : HIRType, wellFormed t = true → is_a t t = true := by
  have main : ∀ n, ∀ t : HIRType, sizeOf t ≤ n → wellFormed t = true → is_a t t = true := by
    intro n
    induction n using Nat.strong_induction_on with
    | _ n ih =>
      intro t hn hwf
      cases t with
      | Infer => simp
      | Unreachable => simp
      | GenericsTypeArgument i => simp [is_a_gta_gta]
      | Named p g =>
        rw [is_a_named_named]
        simp only [beq_self_eq_true, Bool.true_and, Bool.and_eq_true]
        rw [wellFormed] at hwf
        apply isAZip_self
        intro x hx
        exact ih (sizeOf x) (by
            have := List.sizeOf_lt_of_mem hx
            simp at hn
            omega) x (le_refl _) (wellFormedL_iff.mp hwf x hx)
      | Tuple l =>
        rw [is_a_tuple_tuple]
        simp only [le_refl, decide_True, Bool.true_and]
        rw [wellFormed] at hwf
        apply isAZip_self
        intro x hx
        exact ih (sizeOf x) (by
            have := List.sizeOf_lt_of_mem hx
            simp at hn
            omega) x (le_refl _) (wellFormedL_iff.mp hwf x hx)
      | Array t =>
        rw [is_a_array_array]
        rw [wellFormed] at hwf
        exact ih (sizeOf t) (by simp at hn; omega) t (le_refl _) hwf
      | Function a r =>
        rw [is_a_function_function]
        simp only [beq_self_eq_true, Bool.true_and, Bool.and_eq_true]
        rw [wellFormed, Bool.and_eq_true] at hwf
        constructor
        · apply isAZip_self
          intro x hx
          exact ih (sizeOf x) (by
              have := List.sizeOf_lt_of_mem hx
              simp at hn
              omega) x (le_refl _) (wellFormedL_iff.mp hwf.1 x hx)
        · exact ih (sizeOf r) (by simp at hn; omega) r (le_refl _) hwf.2
      | AnonymousStruct m =>
        rw [is_a_struct_struct, isAStruct_iff]
        rw [wellFormed, Bool.and_eq_true] at hwf
        intro p hp
        refine ⟨p.2, ?_, ?_⟩
        · obtain ⟨k, v⟩ := p
          exact lookup_eq_some_of_mem hwf.1 hp
        · have hsz : sizeOf p.2 < sizeOf m := by
            have h1 := List.sizeOf_lt_of_mem hp
            obtain ⟨k, v⟩ := p
            simp at h1 ⊢
            omega
          exact ih (sizeOf p.2) (by simp at hn; omega) p.2 (le_refl _)
            (wellFormedM_iff.mp hwf.2 p hp)
      | Or l =>
        rw [wellFormed] at hwf
        rw [is_a_or_left (by simp) (by simp), isAAllLeft_iff]
        intro x hx
        have hxx : is_a x x = true := ih (sizeOf x) (by
            have := List.sizeOf_lt_of_mem hx
            simp at hn
            omega) x (le_refl _) (wellFormedL_iff.mp hwf x hx)
        exact is_a_or_of_mem x x l hxx hx
  exact fun t => main (sizeOf t) t (le_refl _)

theorem is_a_or_subset : ∀ s : HIRType, ufree s = true → ∀ l l' : List HIRType,
    is_a s (.Or l) = true → (∀ x ∈ l, x ∈ l') → is_a s (.Or l') = true := by
  have main : ∀ n, ∀ s : HIRType, sizeOf s ≤ n → ufree s = true → ∀ l l' : List HIRType,
      is_a s (.Or l) = true → (∀ x ∈ l, x ∈ l') → is_a s (.Or l') = true := by
    intro n
    induction n using Nat.strong_induction_on with
    | _ n ih =>
      intro s hn hu l l' hsl hsub
      have hgen : ∀ s2 : HIRType, s2 ≠ .Infer → s2 ≠ .Unreachable → isOrT s2 = false →
          is_a s2 (.Or l) = true → is_a s2 (.Or l') = true := by
        intro s2 h1 h2 h3 hs2
        rw [is_a_or_right h1 h2 h3, isAAnyRight_iff] at hs2 ⊢
        obtain ⟨u, hul, hsu⟩ := hs2
        exact ⟨u, hsub u hul, hsu⟩
      cases s with
      | Infer => simp
      | Unreachable => rw [ufree] at hu; cases hu
      | GenericsTypeArgument i => exact hgen _ (by simp) (by simp) (by simp [isOrT]) hsl
      | Named p g => exact hgen _ (by simp) (by simp) (by simp [isOrT]) hsl
      | Tuple l2 => exact hgen _ (by simp) (by simp) (by simp [isOrT]) hsl
      | Array t2 => exact hgen _ (by simp) (by simp) (by simp [isOrT]) hsl
      | Function a r => exact hgen _ (by simp) (by simp) (by simp [isOrT]) hsl
      | AnonymousStruct m => exact hgen _ (by simp) (by simp) (by simp [isOrT]) hsl
      | Or m =>
        rw [ufree] at hu
        rw [is_a_or_left (by simp) (by simp), isAAllLeft_iff] at hsl ⊢
        intro z hz
        have hz_sz : sizeOf z < sizeOf m := List.sizeOf_lt_of_mem hz
        exact ih (sizeOf z) (by simp at hn; omega) z (le_refl _)
          (ufreeL_iff.mp hu z hz) l l' (hsl z hz) hsub
  exact fun s hu l l' hsl hsub => main (sizeOf s) s (le_refl _) hu l l' hsl hsub

theorem is_a_or_singleton : ∀ s : HIRType, ufree s = true → ∀ t : HIRType,
    t ≠ .Unreachable → is_a s (.Or [t]) = true → is_a s t = true := by
  have main : ∀ n, ∀ s : HIRType, sizeOf s ≤ n → ufree s = true → ∀ t : HIRType,
      t ≠ .Unreachable → is_a s (.Or [t]) = true → is_a s t = true := by
    intro n
    induction n using Nat.strong_induction_on with
    | _ n ih =>
      intro s hn hu t htu hst
      have hgen : ∀ s2 : HIRType, s2 ≠ .Infer → s2 ≠ .Unreachable → isOrT s2 = false →
          is_a s2 (.Or [t]) = true → is_a s2 t = true := by
        intro s2 h1 h2 h3 hs2
        rw [is_a_or_right h1 h2 h3, isAAnyRight_iff] at hs2
        obtain ⟨u, hul, hsu⟩ := hs2
        have hut : u = t := List.mem_singleton.mp hul
        subst hut
        exact hsu
      cases s with
      | Infer => simp
      | Unreachable => rw [ufree] at hu; cases hu
      | GenericsTypeArgument i => exact hgen _ (by simp) (by simp) (by simp [isOrT]) hst
      | Named p g => exact hgen _ (by simp) (by simp) (by simp [isOrT]) hst
      | Tuple l2 => exact hgen _ (by simp) (by simp) (by simp [isOrT]) hst
      | Array t2 => exact hgen _ (by simp) (by simp) (by simp [isOrT]) hst
      | Function a r => exact hgen _ (by simp) (by simp) (by simp [isOrT]) hst
      | AnonymousStruct m => exact hgen _ (by simp) (by simp) (by simp [isOrT]) hst
      | Or m =>
        rw [ufree] at hu
        by_cases hti : t = .Infer
        · subst hti
          simp
        · rw [is_a_or_left (by simp) (by simp), isAAllLeft_iff] at hst
          rw [is_a_or_left hti htu, isAAllLeft_iff]
          intro z hz
          have hz_sz : sizeOf z < sizeOf m := List.sizeOf_lt_of_mem hz
          exact ih (sizeOf z) (by simp at hn; omega) z (le_refl _)
            (ufreeL_iff.mp hu z hz) t htu (hst z hz)
  exact fun s hu t htu hst => main (sizeOf s) s (le_refl _) hu t htu hst

end Kirl

namespace Kirl

theorem isOrT_iff {u : HIRType} : isOrT u = true ↔ ∃ li, u = .Or li := by
  cases u <;> simp [isOrT]

theorem flattenOr_eq_nil : ∀ {l : List HIRType}, flattenOr l = [] → ∀ c ∈ l, c = .Or [] := by
  intro l
  induction l with
  | nil => intro _ c hc; simp at hc
  | cons c rest ih =>
    intro h c2 hc2
    cases c with
    | Or li =>
      rw [flattenOr] at h
      have hli : li = [] := by
        cases li with
        | nil => rfl
        | cons a t => simp at h
      have hrest : flattenOr rest = [] := by
        rw [hli] at h
        simpa using h
      rcases List.mem_cons.mp hc2 with rfl | hc3
      · rw [hli]
      · exact ih hrest c2 hc3
    | Infer => simp only [flattenOr] at h; exact absurd h (List.cons_ne_nil _ _)
    | Unreachable => simp only [flattenOr] at h; exact absurd h (List.cons_ne_nil _ _)
    | GenericsTypeArgument i => simp only [flattenOr] at h; exact absurd h (List.cons_ne_nil _ _)
    | Named p g => simp only [flattenOr] at h; exact absurd h (List.cons_ne_nil _ _)
    | Tuple items => simp only [flattenOr] at h; exact absurd h (List.cons_ne_nil _ _)
    | Array item => simp only [flattenOr] at h; exact absurd h (List.cons_ne_nil _ _)
    | Function a r => simp only [flattenOr] at h; exact absurd h (List.cons_ne_nil _ _)
    | AnonymousStruct m => simp only [flattenOr] at h; exact absurd h (List.cons_ne_nil _ _)

theorem normalize_ufree : ∀ t : HIRType, ufree t = true → ufree (normalize t) = true := by
  have main : ∀ n, ∀ t : HIRType, sizeOf t ≤ n → ufree t = true → ufree (normalize t) = true := by
    intro n
    induction n using Nat.strong_induction_on with
    | _ n ih =>
      intro t hn hu
      cases t with
      | Infer => simpa only [normalize] using hu
      | Unreachable => rw [ufree] at hu; cases hu
      | GenericsTypeArgument i => simpa only [normalize] using hu
      | Named p g => simpa only [normalize] using hu
      | Tuple l =>
        rw [ufree] at hu
        rw [normalize, ufree, ufreeL_iff]
        intro x hx
        obtain ⟨y, hy, rfl⟩ := mem_normalizeList.mp hx
        exact ih (sizeOf y) (by
            have := List.sizeOf_lt_of_mem hy
            simp at hn
            omega) y (le_refl _) (ufreeL_iff.mp hu y hy)
      | Array t =>
        rw [ufree] at hu
        rw [normalize, ufree]
        exact ih (sizeOf t) (by simp at hn; omega) t (le_refl _) hu
      | Function a r =>
        rw [ufree, Bool.and_eq_true] at hu
        rw [normalize, ufree, Bool.and_eq_true]
        constructor
        · rw [ufreeL_iff]
          intro x hx
          obtain ⟨y, hy, rfl⟩ := mem_normalizeList.mp hx
          exact ih (sizeOf y) (by
              have := List.sizeOf_lt_of_mem hy
              simp at hn
              omega) y (le_refl _) (ufreeL_iff.mp hu.1 y hy)
        · exact ih (sizeOf r) (by simp at hn; omega) r (le_refl _) hu.2
      | AnonymousStruct m =>
        rw [ufree] at hu
        rw [normalize, ufree, ufreeM_iff]
        intro p hp
        obtain ⟨q, hq, rfl⟩ := mem_normalizeMembers.mp hp
        have hsz : sizeOf q.2 < sizeOf m := by
          have h1 := List.sizeOf_lt_of_mem hq
          obtain ⟨k, v⟩ := q
          simp at h1 ⊢
          omega
        exact ih (sizeOf q.2) (by simp at hn; omega) q.2 (le_refl _)
          (ufreeM_iff.mp hu q hq)
      | Or l =>
        rw [ufree] at hu
        have hL2 : ∀ y ∈ flattenOr (normalizeList l), ufree y = true := by
          intro y hy
          obtain ⟨c, hc, hdisj⟩ := mem_flattenOr.mp hy
          obtain ⟨x, hx, rfl⟩ := mem_normalizeList.mp hc
          have hux : ufree (normalize x) = true := ih (sizeOf x) (by
              have := List.sizeOf_lt_of_mem hx
              simp at hn
              omega) x (le_refl _) (ufreeL_iff.mp hu x hx)
          rcases hdisj with ⟨li, heq, hyli⟩ | ⟨_, rfl⟩
          · rw [heq, ufree] at hux
            exact ufreeL_iff.mp hux y hyli
          · exact hux
        have hL4 : ∀ y ∈ dedupTypes (sortTypes (flattenOr (normalizeList l))),
            ufree y = true := by
          intro y hy
          have hy3 := (mem_dedupTypes (sortTypes (flattenOr (normalizeList l))).length
            _ (le_refl _)).mp hy
          exact hL2 y (mem_sortTypes.mp hy3)
        rw [normalize_or_eq]
        split
        · rename_i t heq
          have ht : t ∈ dedupTypes (sortTypes (flattenOr (normalizeList l))) := by
            by_cases hlen : 1 < (dedupTypes (sortTypes (flattenOr (normalizeList l)))).length
            · rw [if_pos hlen] at heq
              have : t ∈ (dedupTypes (sortTypes (flattenOr (normalizeList l)))).filter
                  (fun t => !(beq t .Unreachable)) := by
                rw [heq]; simp
              exact (List.mem_filter.mp this).1
            · rw [if_neg hlen] at heq
              rw [heq]; simp
          exact hL4 t ht
        · rw [ufree, ufreeL_iff]
          intro y hy
          by_cases hlen : 1 < (dedupTypes (sortTypes (flattenOr (normalizeList l)))).length
          · rw [if_pos hlen] at hy
            exact hL4 y (List.mem_filter.mp hy).1
          · rw [if_neg hlen] at hy
            exact hL4 y hy
  exact fun t => main (sizeOf t) t (le_refl _)

end Kirl

namespace Kirl

theorem normalize_is_a_both : ∀ t : HIRType, ufree t = true → wellFormed t = true →
    is_a (normalize t) t = true ∧ is_a t (normalize t) = true := by
  have main : ∀ n, ∀ t : HIRType, sizeOf t ≤ n → ufree t = true → wellFormed t = true →
      is_a (normalize t) t = true ∧ is_a t (normalize t) = true := by
    intro n
    induction n using Nat.strong_induction_on with
    | _ n ih =>
      intro t hn h1 h2
      cases t with
      | Infer =>
        simp only [normalize]
        exact ⟨by simp, by simp⟩
      | Unreachable => rw [ufree] at h1; cases h1
      | GenericsTypeArgument i =>
        simp only [normalize]
        exact ⟨by rw [is_a_gta_gta]; simp, by rw [is_a_gta_gta]; simp⟩
      | Named p g =>
        simp only [normalize]
        have hr := is_a_refl (.Named p g) h2
        exact ⟨hr, hr⟩
      | Tuple l =>
        rw [ufree] at h1
        rw [wellFormed] at h2
        have hIH : ∀ x ∈ l, is_a (normalize x) x = true ∧ is_a x (normalize x) = true :=
          fun x hx => ih (sizeOf x) (by
              have := List.sizeOf_lt_of_mem hx
              simp at hn
              omega) x (le_refl _) (ufreeL_iff.mp h1 x hx) (wellFormedL_iff.mp h2 x hx)
        rw [normalize]
        constructor
        · rw [is_a_tuple_tuple]
          simp only [Bool.and_eq_true, decide_eq_true_eq]
          exact ⟨by simp [normalizeList_length], isAZip_norm_left (fun x hx => (hIH x hx).1)⟩
        · rw [is_a_tuple_tuple]
          simp only [Bool.and_eq_true, decide_eq_true_eq]
          exact ⟨by simp [normalizeList_length], isAZip_norm_right (fun x hx => (hIH x hx).2)⟩
      | Array t2 =>
        rw [ufree] at h1
        rw [wellFormed] at h2
        have hIH := ih (sizeOf t2) (by simp at hn; omega) t2 (le_refl _) h1 h2
        rw [normalize]
        exact ⟨by rw [is_a_array_array]; exact hIH.1, by rw [is_a_array_array]; exact hIH.2⟩
      | Function a r =>
        rw [ufree, Bool.and_eq_true] at h1
        rw [wellFormed, Bool.and_eq_true] at h2
        have hIHa : ∀ x ∈ a, is_a (normalize x) x = true ∧ is_a x (normalize x) = true :=
          fun x hx => ih (sizeOf x) (by
              have := List.sizeOf_lt_of_mem hx
              simp at hn
              omega) x (le_refl _) (ufreeL_iff.mp h1.1 x hx) (wellFormedL_iff.mp h2.1 x hx)
        have hIHr := ih (sizeOf r) (by simp at hn; omega) r (le_refl _) h1.2 h2.2
        rw [normalize]
        constructor
        · rw [is_a_function_function]
          simp only [Bool.and_eq_true]
          refine ⟨⟨by simp [normalizeList_length], ?_⟩, hIHr.1⟩
          exact isAZip_norm_right (fun x hx => (hIHa x hx).2)
        · rw [is_a_function_function]
          simp only [Bool.and_eq_true]
          refine ⟨⟨by simp [normalizeList_length], ?_⟩, hIHr.2⟩
          exact isAZip_norm_left (fun x hx => (hIHa x hx).1)
      | AnonymousStruct m =>
        rw [ufree] at h1
        rw [wellFormed, Bool.and_eq_true] at h2
        have hIH : ∀ p ∈ m, is_a (normalize p.2) p.2 = true ∧
            is_a p.2 (normalize p.2) = true := by
          intro p hp
          have hsz : sizeOf p.2 < sizeOf m := by
            have h3 := List.sizeOf_lt_of_mem hp
            obtain ⟨k, v⟩ := p
            simp at h3 ⊢
            omega
          exact ih (sizeOf p.2) (by simp at hn; omega) p.2 (le_refl _)
            (ufreeM_iff.mp h1 p hp) (wellFormedM_iff.mp h2.2 p hp)
        rw [normalize]
        constructor
        · rw [is_a_struct_struct, isAStruct_iff]
          intro p hp
          refine ⟨normalize p.2, ?_, (hIH p hp).1⟩
          rw [lookup_normalizeMembers, lookup_eq_some_of_mem h2.1 hp]
          rfl
        · rw [is_a_struct_struct, isAStruct_iff]
          intro p hp
          obtain ⟨q, hq, rfl⟩ := mem_normalizeMembers.mp hp
          exact ⟨q.2, lookup_eq_some_of_mem h2.1 hq, (hIH q hq).2⟩
      | Or l =>
        rw [ufree] at h1
        rw [wellFormed] at h2
        have hIH : ∀ x ∈ l, is_a (normalize x) x = true ∧ is_a x (normalize x) = true :=
          fun x hx => ih (sizeOf x) (by
              have := List.sizeOf_lt_of_mem hx
              simp at hn
              omega) x (le_refl _) (ufreeL_iff.mp h1 x hx) (wellFormedL_iff.mp h2 x hx)
        have hmemL4 : ∀ y : HIRType,
            y ∈ dedupTypes (sortTypes (flattenOr (normalizeList l))) ↔
            y ∈ flattenOr (normalizeList l) := by
          intro y
          rw [mem_dedupTypes (sortTypes (flattenOr (normalizeList l))).length _ (le_refl _),
            mem_sortTypes]
        have horigin : ∀ y ∈ flattenOr (normalizeList l),
            ∃ x ∈ l, y = normalize x ∨ ∃ li, normalize x = .Or li ∧ y ∈ li := by
          intro y hy
          obtain ⟨c, hc, hdisj⟩ := mem_flattenOr.mp hy
          obtain ⟨x, hx, rfl⟩ := mem_normalizeList.mp hc
          rcases hdisj with ⟨li, heq, hyli⟩ | ⟨_, rfl⟩
          · exact ⟨x, hx, .inr ⟨li, heq, hyli⟩⟩
          · exact ⟨x, hx, .inl rfl⟩
        have hufree4 : ∀ y ∈ flattenOr (normalizeList l), ufree y = true := by
          intro y hy
          obtain ⟨x, hx, hcase⟩ := horigin y hy
          have hux : ufree (normalize x) = true := normalize_ufree x (ufreeL_iff.mp h1 x hx)
          rcases hcase with rfl | ⟨li, heq, hyli⟩
          · exact hux
          · rw [heq, ufree] at hux
            exact ufreeL_iff.mp hux y hyli
        have helem : ∀ y ∈ flattenOr (normalizeList l), is_a y (.Or l) = true := by
          intro y hy
          obtain ⟨x, hx, hcase⟩ := horigin y hy
          rcases hcase with rfl | ⟨li, heq, hyli⟩
          · exact is_a_or_of_mem _ x l (hIH x hx).1 hx
          · by_cases hxi : x = .Infer
            · subst hxi
              exact is_a_or_of_mem y .Infer l (by simp) hx
            · have hux := ufreeL_iff.mp h1 x hx
              have hxu : x ≠ .Unreachable := fun he => by rw [he, ufree] at hux; cases hux
              have hx1 := (hIH x hx).1
              rw [heq, is_a_or_left hxi hxu, isAAllLeft_iff] at hx1
              exact is_a_or_of_mem y x l (hx1 y hyli) hx
        have hfilter : (dedupTypes (sortTypes (flattenOr (normalizeList l)))).filter
            (fun t => !(beq t .Unreachable)) =
            dedupTypes (sortTypes (flattenOr (normalizeList l))) := by
          apply List.filter_eq_self.mpr
          intro x hx
          have hux := hufree4 x ((hmemL4 x).mp hx)
          have hxu : x ≠ .Unreachable := fun he => by rw [he, ufree] at hux; cases hux
          rw [beq_eq_false_iff.mpr hxu]
          rfl
        have hback : ∀ L : List HIRType,
            dedupTypes (sortTypes (flattenOr (normalizeList l))) = L → ∀ x ∈ l,
            (∃ li, normalize x = .Or li ∧ ∀ z ∈ li, z ∈ L) ∨ normalize x ∈ L := by
          intro L hLeq x hx
          have hmemflat : ∀ z : HIRType, z ∈ flattenOr (normalizeList l) → z ∈ L := by
            intro z hz
            rw [← hLeq]
            exact (hmemL4 z).mpr hz
          by_cases hor : isOrT (normalize x) = true
          · obtain ⟨li, hli⟩ := isOrT_iff.mp hor
            refine .inl ⟨li, hli, ?_⟩
            intro z hz
            exact hmemflat z (mem_flattenOr.mpr
              ⟨normalize x, mem_normalizeList.mpr ⟨x, hx, rfl⟩, .inl ⟨li, hli, hz⟩⟩)
          · exact .inr (hmemflat _ (mem_flattenOr.mpr
              ⟨normalize x, mem_normalizeList.mpr ⟨x, hx, rfl⟩,
                .inr ⟨by simpa using hor, rfl⟩⟩))
        rw [normalize_or_eq, hfilter, ite_self]
        cases hL : dedupTypes (sortTypes (flattenOr (normalizeList l))) with
        | nil =>
          have hflatnil : flattenOr (normalizeList l) = [] := by
            apply List.eq_nil_iff_forall_not_mem.mpr
            intro z hz
            have hz2 := (hmemL4 z).mpr hz
            rw [hL] at hz2
            simp at hz2
          constructor
          · show is_a (.Or []) (.Or l) = true
            rw [is_a_or_left (by simp) (by simp)]
            simp [isAAllLeft]
          · show is_a (.Or l) (.Or []) = true
            rw [is_a_or_left (by simp) (by simp), isAAllLeft_iff]
            intro x hx
            have hno : normalize x = .Or [] :=
              flattenOr_eq_nil hflatnil (normalize x) (mem_normalizeList.mpr ⟨x, hx, rfl⟩)
            have hx2 := (hIH x hx).2
            rw [hno] at hx2
            exact hx2
        | cons y ys =>
          cases ys with
          | nil =>
            have hymem : y ∈ flattenOr (normalizeList l) := by
              apply (hmemL4 y).mp
              rw [hL]
              simp
            have huy : ufree y = true := hufree4 y hymem
            have hyu : y ≠ .Unreachable := fun he => by rw [he, ufree] at huy; cases huy
            constructor
            · show is_a y (.Or l) = true
              exact helem y hymem
            · show is_a (.Or l) y = true
              by_cases hyi : y = .Infer
              · subst hyi
                simp
              · rw [is_a_or_left hyi hyu, isAAllLeft_iff]
                intro x hx
                have hux := ufreeL_iff.mp h1 x hx
                rcases hback [y] hL x hx with ⟨li, hli, hsub⟩ | hmem
                · have hx2 := (hIH x hx).2
                  rw [hli] at hx2
                  exact is_a_or_singleton x hux y hyu (is_a_or_subset x hux li [y] hx2 hsub)
                · have hx2 := (hIH x hx).2
                  rw [List.mem_singleton.mp hmem] at hx2
                  exact hx2
          | cons z zs =>
            have hmem3 : ∀ w ∈ y :: z :: zs, w ∈ flattenOr (normalizeList l) := by
              intro w hw
              apply (hmemL4 w).mp
              rw [hL]
              exact hw
            constructor
            · show is_a (.Or (y :: z :: zs)) (.Or l) = true
              rw [is_a_or_left (by simp) (by simp), isAAllLeft_iff]
              intro w hw
              exact helem w (hmem3 w hw)
            · show is_a (.Or l) (.Or (y :: z :: zs)) = true
              rw [is_a_or_left (by simp) (by simp), isAAllLeft_iff]
              intro x hx
              have hux := ufreeL_iff.mp h1 x hx
              rcases hback (y :: z :: zs) hL x hx with ⟨li, hli, hsub⟩ | hmem
              · have hx2 := (hIH x hx).2
                rw [hli] at hx2
                exact is_a_or_subset x hux li (y :: z :: zs) hx2 hsub
              · exact is_a_or_of_mem x (normalize x) (y :: z :: zs) (hIH x hx).2 hmem
  exact fun t => main (sizeOf t) t (le_refl _)

end Kirl

namespace Kirl

/-- C2 counterexample: the claim fails for `t = Or([Unreachable])`. Normalization
collapses the singleton `Or` to `Unreachable`, but `Or([Unreachable])` is not a
subtype of `Unreachable` (the `(_, Unreachable) => false` clause fires after the
`Or`-on-the-left clause requires every component — here `Unreachable` itself — to
satisfy `Unreachable`, which the clause order denies for the outer query). -/
theorem C2_counterexample :
    into_normalized (.Or [.Unreachable]) = .Unreachable ∧
    is_a (.Or [.Unreachable]) (into_normalized (.Or [.Unreachable])) = false := by
  constructor
  · simp [into_normalized, normalize, normalizeList, flattenOr, sortTypes, insertType,
      dedupTypes]
  · simp [into_normalized, normalize, normalizeList, flattenOr, sortTypes, insertType,
      dedupTypes, is_a, isAAllLeft]

/-- **C2 (amended).** Normalization preserves meaning in both directions of
subtyping for every type that contains no `Unreachable` node (`ufree`) and whose
`AnonymousStruct` member maps have pairwise-distinct keys (`wellFormed`, true of
every value coming from Rust's `BTreeMap`): `normalize(t).is_a(t) = true` and
`t.is_a(normalize(t)) = true` where `normalize(t)` is the value produced by
`into_normalized`. Without the `ufree` restriction the claim is false in both
directions (`C2_counterexample`). -/
theorem C2_normalize_preserves (t : HIRType) (h1 : ufree t = true)
    (h2 : wellFormed t = true) :
    is_a (into_normalized t) t = true ∧ is_a t (into_normalized t) = true := by
  rw [into_normalized]
  exact normalize_is_a_both t h1 h2

theorem C2_witness :
    is_a (into_normalized (.Or [.Tuple [], .Tuple []])) (.Or [.Tuple [], .Tuple []]) = true ∧
    is_a (.Or [.Tuple [], .Tuple []]) (into_normalized (.Or [.Tuple [], .Tuple []])) = true :=
  C2_normalize_preserves (.Or [.Tuple [], .Tuple []])
    (by simp [ufree, ufreeL]) (by simp [wellFormed, wellFormedL, nodupKeys])

end Kirl
